import Mathlib

/-!
A shallow embedding of the storage engine (row codec, page codec, WAL codec,
and the page-partitioned database index) translated from the repository's
Rust sources (`src/row.rs`, `src/page.rs`, `src/wal.rs`, `src/db.rs`), together
with theorems settling the specification's claims about it.

Machine integers are modelled as `Nat` with explicit `% 2^w` where the Rust
code truncates (release-mode wrapping semantics for the `u16` size sums).
Code paths that can panic (slice out of range, `unwrap` on `None`,
`NonZeroU32` conversion of zero, the fatal oversized-page branch) are
modelled as `Option`-valued functions returning `none` at the panic.
-/

/-- `u32::MAX`, the largest value of a 32-bit id (`NonZeroU32::MAX`). -/
def u32MAX : Nat := 4294967295

/-- `PAGE_SIZE` from `page.rs` (default configuration, 4096 bytes). -/
def PAGE_SIZE : Nat := 4096

/-- Little-endian value of four bytes, as read by `bytes_to_u32`. -/
def leVal (a b c d : Nat) : Nat := a + 256 * b + 65536 * c + 16777216 * d

/-- `u32::to_le_bytes` for a value below `2^32`. -/
def u32le (n : Nat) : List Nat :=
  [n % 256, n / 256 % 256, n / 65536 % 256, n / 16777216 % 256]

/-- `u16::to_le_bytes` for a value below `2^16`. -/
def u16le (n : Nat) : List Nat := [n % 256, n / 256 % 256]

/-- Column kinds of the schema (`RowType` in `row.rs`). -/
inductive RowType where
  | id
  | u32
  | bytes
  | bool
deriving DecidableEq, Repr

/-- Typed row cells (`RowVal` in `row.rs`). The `id` payload is a non-zero
u32 (`NonZeroU32`); zero never arises from the decoder. -/
inductive RowVal where
  | id (n : Nat)
  | u32 (n : Nat)
  | bytes (b : List Nat)
  | bool (b : Bool)
deriving DecidableEq, Repr

namespace RowVal

/-- `RowVal::size`: 4 for Id/U32, 1 for Bool, `len as u16 + 2` for Bytes
(u16 arithmetic, wrapping). -/
def size : RowVal → Nat
  | .id _ => 4
  | .u32 _ => 4
  | .bytes b => ((b.length % 65536) + 2) % 65536
  | .bool _ => 1

/-- `RowVal::to_bytes`: Id/U32 little-endian 4 bytes; Bytes a 2-byte
little-endian length prefix (`len as u16`) followed by all the bytes;
Bool one byte. -/
def toBytes : RowVal → List Nat
  | .id n => u32le n
  | .u32 n => u32le n
  | .bytes b => u16le (b.length % 65536) ++ b
  | .bool b => [if b then 1 else 0]

end RowVal

/-- Read one cell of the given kind from the front of `bytes`, returning the
cell and the number of bytes consumed; `none` models the panics of
`RowVal::from_bytes` / `bytes_to_values` (slice out of range, zero id,
byte other than 0/1 for Bool). -/
def readCell : RowType → List Nat → Option (RowVal × Nat)
  | .id, a :: b :: c :: d :: _ =>
      let n := leVal a b c d
      if n = 0 then none else some (.id n, 4)
  | .u32, a :: b :: c :: d :: _ => some (.u32 (leVal a b c d), 4)
  | .bytes, a :: b :: rest =>
      let len := a + 256 * b
      if rest.length < len then none else some (.bytes (rest.take len), 2 + len)
  | .bool, a :: _ =>
      if a = 1 then some (.bool true, 1)
      else if a = 0 then some (.bool false, 1) else none
  | _, _ => none

/-- `bytes_to_values` from `row.rs`: read one cell per schema position from
the front of `bytes`; returns the cells and the total bytes consumed. -/
def bytesToValues (bytes : List Nat) : List RowType → Option (List RowVal × Nat)
  | [] => some ([], 0)
  | t :: ts =>
      (readCell t bytes).bind fun vn =>
        (bytesToValues (bytes.drop vn.2) ts).map fun vsm =>
          (vn.1 :: vsm.1, vn.2 + vsm.2)

/-- WAL records (`WALRecord` in `wal.rs`): an insert of a row tail under a
non-zero id, or a delete of an id. -/
inductive WALRecord where
  | insert (id : Nat) (row : List RowVal)
  | delete (id : Nat)
deriving DecidableEq, Repr

namespace WALRecord

/-- `WALRecord::to_bytes`: Insert is the 4-byte little-endian id followed by
the tail cells' encodings; Delete is four zero bytes then the id. -/
def toBytes : WALRecord → List Nat
  | .insert id row => u32le id ++ (row.map RowVal.toBytes).flatten
  | .delete id => [0, 0, 0, 0] ++ u32le id

/-- `WALRecord::from_bytes`: peek the first four bytes; if all zero decode a
Delete (8 bytes), otherwise decode the full row with the schema and return
the record together with `incr + 4` exactly as the source does (the
returned offset double-counts the 4 id bytes already included in `incr`).
`none` models the panics (short slice, zero id, non-Id first cell). -/
def fromBytes (bytes : List Nat) (schema : List RowType) : Option (WALRecord × Nat) :=
  match bytes with
  | a :: b :: c :: d :: rest =>
      if a = 0 ∧ b = 0 ∧ c = 0 ∧ d = 0 then
        match rest with
        | e :: f :: g :: h :: _ =>
            let n := leVal e f g h
            if n = 0 then none else some (.delete n, 8)
        | _ => none
      else
        (bytesToValues (a :: b :: c :: d :: rest) schema).bind fun rn =>
          match rn.1 with
          | .id i :: tl => some (.insert i tl, rn.2 + 4)
          | _ => none
  | _ => none

end WALRecord

/-- The decode loop of `deserialize_wal`: while more than 4 bytes remain
(`i < bytes.len() - 4` over the original buffer), decode one record and
advance by the returned offset. The fuel argument only bounds the
recursion: every decoded record advances by at least 4 bytes, so a fuel of
`bytes.length` is never exhausted and the `none` at fuel 0 is unreachable. -/
def deserializeWalGo (schema : List RowType) : Nat → List Nat → Option (List WALRecord)
  | 0, _ => none
  | fuel + 1, bytes =>
      if bytes.length ≤ 4 then some []
      else
        match WALRecord.fromBytes bytes schema with
        | none => none
        | some rn =>
            (deserializeWalGo schema fuel (bytes.drop rn.2)).map fun rs => rn.1 :: rs

/-- `deserialize_wal` from `wal.rs`: returns `some records` when the loop
runs to completion, `none` when a record decode panics. -/
def deserializeWal (bytes : List Nat) (schema : List RowType) :
    Option (List WALRecord) :=
  if bytes.length < 4 then some [] else deserializeWalGo schema bytes.length bytes

/-- Concatenation of the encodings of a record sequence (the WAL file
contents produced by appending each record's `to_bytes`). -/
def walEncode (rs : List WALRecord) : List Nat :=
  (rs.map WALRecord.toBytes).flatten

/-- Schema `[Id, U32]` used by several scenarios in the specification. -/
def schemaIdU32 : List RowType := [RowType.id, RowType.u32]

/-- The two-record sequence of Inserts on which the WAL codec fails to
round-trip. -/
def c5Records : List WALRecord :=
  [WALRecord.insert 1 [RowVal.u32 7], WALRecord.insert 2 [RowVal.u32 9]]

/-! ## Ordered maps and the derived `Ord` instances

Rust's `BTreeMap<NonZeroU32, Vec<RowVal>>` is modelled as an association
list sorted strictly by key; `BTreeSet<Page>` as a list sorted strictly by
the derived lexicographic ordering on `Page`. -/

/-- `BTreeMap` insert: place `(k, v)` at its sorted position, replacing an
existing binding of `k`. -/
def mapInsert {α : Type} (k : Nat) (v : α) : List (Nat × α) → List (Nat × α)
  | [] => [(k, v)]
  | (k1, v1) :: rest =>
      if k < k1 then (k, v) :: (k1, v1) :: rest
      else if k = k1 then (k, v) :: rest
      else (k1, v1) :: mapInsert k v rest

/-- `BTreeMap` lookup. -/
def mapLookup {α : Type} (k : Nat) : List (Nat × α) → Option α
  | [] => none
  | (k1, v1) :: rest => if k = k1 then some v1 else mapLookup k rest

/-- `BTreeMap` remove (drops the binding of `k` when present). -/
def mapRemove {α : Type} (k : Nat) : List (Nat × α) → List (Nat × α)
  | [] => []
  | (k1, v1) :: rest => if k = k1 then rest else (k1, v1) :: mapRemove k rest

/-- Lexicographic composition of comparisons (Rust's `Ordering::then`). -/
def ordAnd (a b : Ordering) : Ordering :=
  match a with
  | .eq => b
  | o => o

/-- `u32` comparison. -/
def natCmp (a b : Nat) : Ordering :=
  if a < b then .lt else if a = b then .eq else .gt

/-- `bool` comparison (`false < true`). -/
def boolCmp : Bool → Bool → Ordering
  | false, false => .eq
  | false, true => .lt
  | true, false => .gt
  | true, true => .eq

/-- Lexicographic list comparison with shorter-prefix-first (Rust `Vec`/
iterator ordering). -/
def listCmpWith {α : Type} (f : α → α → Ordering) : List α → List α → Ordering
  | [], [] => .eq
  | [], _ :: _ => .lt
  | _ :: _, [] => .gt
  | a :: as, b :: bs => ordAnd (f a b) (listCmpWith f as bs)

/-- Discriminant index of a `RowType` (declaration order). -/
def RowType.idx : RowType → Nat
  | .id => 0
  | .u32 => 1
  | .bytes => 2
  | .bool => 3

/-- Derived `Ord` on `RowType`: by declaration order. -/
def rowTypeCmp (a b : RowType) : Ordering := natCmp a.idx b.idx

/-- Discriminant index of a `RowVal` (declaration order). -/
def RowVal.idx : RowVal → Nat
  | .id _ => 0
  | .u32 _ => 1
  | .bytes _ => 2
  | .bool _ => 3

/-- Derived `Ord` on `RowVal`: discriminant order, then the payload. -/
def rowValCmp : RowVal → RowVal → Ordering
  | .id m, .id n => natCmp m n
  | .u32 m, .u32 n => natCmp m n
  | .bytes m, .bytes n => listCmpWith natCmp m n
  | .bool m, .bool n => boolCmp m n
  | a, b => natCmp a.idx b.idx

/-- Derived `Ord` on the `(key, value)` entries of a page's data map. -/
def pairCmp (a b : Nat × List RowVal) : Ordering :=
  ordAnd (natCmp a.1 b.1) (listCmpWith rowValCmp a.2 b.2)

/-- `PageHeader` from `page.rs`: `end`, `start`, `count` (all u32; `end` and
`start` are non-zero ids). Field names carry an `Id` suffix because `end`
is reserved in Lean. -/
structure PageHeader where
  endId : Nat
  startId : Nat
  count : Nat
deriving DecidableEq, Repr

/-- Derived `Ord` on `PageHeader`: by `end`, then `start`, then `count`. -/
def headerCmp (a b : PageHeader) : Ordering :=
  ordAnd (natCmp a.endId b.endId)
    (ordAnd (natCmp a.startId b.startId) (natCmp a.count b.count))

/-- `Page` from `page.rs`: header, ordered data map from id to row tail,
dirty bit, the `size` field used for split decisions, and the schema. -/
structure Page where
  header : PageHeader
  data : List (Nat × List RowVal)
  dirty : Bool
  size : Nat
  schema : List RowType
deriving DecidableEq, Repr

/-- Derived `Ord` on `Page`: lexicographic in declaration order
(header, data, dirty, size, schema). -/
def pageCmp (a b : Page) : Ordering :=
  ordAnd (headerCmp a.header b.header)
    (ordAnd (listCmpWith pairCmp a.data b.data)
      (ordAnd (boolCmp a.dirty b.dirty)
        (ordAnd (natCmp a.size b.size) (listCmpWith rowTypeCmp a.schema b.schema))))

/-- `PageHeader::to_bytes`: `end`, `start`, `count`, each 4-byte
little-endian. -/
def PageHeader.toBytes (h : PageHeader) : List Nat :=
  u32le h.endId ++ u32le h.startId ++ u32le h.count

/-- `split_row` from `row.rs`: split a row into its leading id and the tail;
`none` models the panic on an empty row or a non-Id first cell. -/
def splitRow : List RowVal → Option (Nat × List RowVal)
  | RowVal.id n :: rest => some (n, rest)
  | _ => none

/-- The `u16` sum of all cell sizes of the given rows (wrapping), as computed
by `Page::new` for the `size` field. -/
def sizeOfRows (rows : List (List RowVal)) : Nat :=
  ((rows.map fun r => (r.map RowVal.size).sum).sum) % 65536

/-- `BTreeMap::from_iter` over the split rows: later duplicate ids
overwrite earlier ones. -/
def buildMap (rows : List (List RowVal)) : Option (List (Nat × List RowVal)) :=
  rows.foldlM (fun m r => (splitRow r).map fun kv => mapInsert kv.1 kv.2 m) []

/-- First key of a data map, or the sentinel id 1 (`NonZeroU32::MIN`) when
empty. -/
def headKeyD (d : List (Nat × List RowVal)) : Nat :=
  match d.head? with
  | some kv => kv.1
  | none => 1

/-- Last key of a data map, or the sentinel id 1 when empty. -/
def lastKeyD (d : List (Nat × List RowVal)) : Nat :=
  match d.getLast? with
  | some kv => kv.1
  | none => 1

/-- `Page::new`: size from the input rows (pre-deduplication), data map from
the split rows, header derived from the map, `dirty = false`. -/
def Page.new (rows : List (List RowVal)) (schema : List RowType) : Option Page :=
  (buildMap rows).map fun data =>
    { header := { endId := lastKeyD data, startId := headKeyD data,
                  count := data.length },
      data := data, dirty := false, size := sizeOfRows rows, schema := schema }

/-- `Page::new_dirty`: as `new` but `dirty = true` (the size is recomputed
from the same rows, hence unchanged). -/
def Page.newDirty (rows : List (List RowVal)) (schema : List RowType) : Option Page :=
  (Page.new rows schema).map fun p => { p with dirty := true, size := sizeOfRows rows }

/-- `Page::to_bytes`: header followed by each row as 4 id bytes then the
tail cells' encodings, in ascending id order. -/
def Page.toBytes (p : Page) : List Nat :=
  p.header.toBytes ++
    (p.data.map fun kv => u32le kv.1 ++ (kv.2.map RowVal.toBytes).flatten).flatten

/-- `Page::to_page_bytes`: the encoding padded with zeros to `PAGE_SIZE`;
`none` models the fatal branch when the payload exceeds `PAGE_SIZE`. -/
def Page.toPageBytes (p : Page) : Option (List Nat) :=
  let res := p.toBytes
  if res.length > PAGE_SIZE then none
  else some (res ++ List.replicate (PAGE_SIZE - res.length) 0)

/-- Read `count` rows from the front of `bytes` using the schema
(the loop of `Page::from_bytes`). -/
def readRows (schema : List RowType) : Nat → List Nat → Option (List (List RowVal))
  | 0, _ => some []
  | n + 1, bytes =>
      (bytesToValues bytes schema).bind fun rm =>
        (readRows schema n (bytes.drop rm.2)).map fun rs => rm.1 :: rs

/-- `Page::from_bytes`: decode the 12-byte header (non-zero `end` and
`start`), then `count` rows, and rebuild the page with `Page::new`. -/
def Page.fromBytes (bytes : List Nat) (schema : List RowType) : Option Page :=
  match bytes with
  | b0 :: b1 :: b2 :: b3 :: b4 :: b5 :: b6 :: b7 :: b8 :: b9 :: b10 :: b11 :: rest =>
      if leVal b0 b1 b2 b3 = 0 then none
      else if leVal b4 b5 b6 b7 = 0 then none
      else
        (readRows schema (leVal b8 b9 b10 b11) rest).bind fun rows =>
          Page.new rows schema
  | _ => none

/-- `Page::get`: ordered-map lookup of the row tail. -/
def Page.get (p : Page) (id : Nat) : Option (List RowVal) :=
  mapLookup id p.data

/-- `Page::insert`: widen `start`/`end` with the new id, set dirty, insert
into the data map, refresh `count`; the `size` field is not touched. -/
def Page.insert (p : Page) (row : List RowVal) : Option Page :=
  (splitRow row).map fun kv =>
    let d := mapInsert kv.1 kv.2 p.data
    { p with
      header := { startId := min p.header.startId kv.1,
                  endId := max p.header.endId kv.1,
                  count := d.length },
      data := d, dirty := true }

/-- `Page::remove`: drop the id if present, recompute `start`/`end` from the
remaining data (sentinel 1 when empty), refresh `count`, set dirty, and
return the old tail; the `size` field is not touched. -/
def Page.remove (p : Page) (id : Nat) : Option (List RowVal) × Page :=
  match mapLookup id p.data with
  | some v =>
      let d := mapRemove id p.data
      (some v,
        { p with data := d, dirty := true,
                 header := { startId := headKeyD d, endId := lastKeyD d,
                             count := d.length } })
  | none => (none, p)

/-- `Page::split`: partition the ordered rows at `len / 2` into two new dirty
pages with the same schema. -/
def Page.split (p : Page) : Option (Page × Page) :=
  let mid := p.data.length / 2
  let vecData := p.data.map fun kv => RowVal.id kv.1 :: kv.2
  (Page.newDirty (vecData.take mid) p.schema).bind fun h =>
    (Page.newDirty (vecData.drop mid) p.schema).map fun t => (h, t)

/-! ## The database index (`db.rs`) -/

/-- `BTreeSet<Page>` insert into the sorted page list; an element comparing
equal is kept (Rust's `insert` does not replace). -/
def setInsert (p : Page) : List Page → List Page
  | [] => [p]
  | q :: rest =>
      match pageCmp p q with
      | .lt => p :: q :: rest
      | .eq => q :: rest
      | .gt => q :: setInsert p rest

/-- `BTreeSet<Page>` remove of the element comparing equal to `p`. -/
def setRemove (p : Page) : List Page → List Page
  | [] => []
  | q :: rest =>
      match pageCmp p q with
      | .eq => rest
      | _ => q :: setRemove p rest

/-- The lower sentinel of the range query in `db.rs`: header
`(end = id, start = NonZeroU32::MIN, count = u32::MIN)`, clean, empty data.
The revision of `db.rs` in the sources constructs this sentinel without
`size`/`schema` fields; they are given the neutral values `0`/`[]` here and
are reached by the comparison only after header, data and dirty all tie. -/
def rangeLo (id : Nat) : Page :=
  { header := { endId := id, startId := 1, count := 0 },
    data := [], dirty := false, size := 0, schema := [] }

/-- The upper sentinel of the range query: header
`(end = NonZeroU32::MAX, start = id, count = u32::MAX)`, dirty, empty data. -/
def rangeHi (id : Nat) : Page :=
  { header := { endId := u32MAX, startId := id, count := u32MAX },
    data := [], dirty := true, size := 0, schema := [] }

/-- Membership in the inclusive sentinel range `rangeLo id ..= rangeHi id`. -/
def inRange (p : Page) (id : Nat) : Bool :=
  !(pageCmp p (rangeLo id) == Ordering.lt) && !(pageCmp p (rangeHi id) == Ordering.gt)

/-- `self.pages.range(lo..=hi).rev().next()`: the greatest page of the
sorted index lying in the sentinel range. -/
def rangeMax (pages : List Page) (id : Nat) : Option Page :=
  (pages.filter fun p => inRange p id).getLast?

/-- The database state of `db.rs`: the ordered page index, the data file and
WAL file contents (byte lists), the in-memory WAL map, and the schema. -/
structure DB where
  pages : List Page
  dataFile : List Nat
  walRecords : List (Nat × List RowVal)
  walFile : List Nat
  schema : List RowType
deriving DecidableEq, Repr

/-- A freshly opened database over empty files. -/
def emptyDB (schema : List RowType) : DB :=
  { pages := [], dataFile := [], walRecords := [], walFile := [], schema := schema }

/-- `DB::insert`: `WAL::insert` updates the WAL map and appends an Insert
record to the WAL file, returning true, so the page path is never taken. -/
def DB.insert (db : DB) (id : Nat) (vals : List RowVal) : DB :=
  { db with
    walRecords := mapInsert id vals db.walRecords,
    walFile := db.walFile ++ (WALRecord.insert id vals).toBytes }

/-- `DB::get`: WAL map first; else, on a non-empty index, the lookup in the
page produced by `range(..).rev().next()`. -/
def DB.get (db : DB) (id : Nat) : Option (List RowVal) :=
  match mapLookup id db.walRecords with
  | some v => some v
  | none =>
      match db.pages with
      | [] => none
      | _ :: _ =>
          match rangeMax db.pages id with
          | some p => p.get id
          | none => none

/-- `DB::insert_to_page` on the page list: empty-index case, prepend case
(`id < first.start`) with a split of the first page when its `size()`
exceeds `PAGE_SIZE`, the symmetric append case, and the covering-page case
via the sentinel range query; `none` models the `unwrap` panic on an empty
range. -/
def insertToPageAux (schema : List RowType) (pages : List Page) (id : Nat)
    (vals : List RowVal) : Option (List Page) :=
  let row := RowVal.id id :: vals
  match pages with
  | [] => (Page.new [row] schema).map fun p => setInsert p []
  | first :: rest =>
      if id < first.header.startId then
        (first.insert row).bind fun fp =>
          let pages1 := setInsert fp rest
          match pages1 with
          | [] => some pages1
          | f1 :: rest1 =>
              if f1.size > PAGE_SIZE then
                (f1.split).map fun ht => setInsert ht.2 (setInsert ht.1 rest1)
              else some pages1
      else
        match pages.getLast? with
        | none => some pages
        | some lastP =>
            if lastP.header.endId < id then
              (lastP.insert row).bind fun lp =>
                let pages1 := setInsert lp pages.dropLast
                match pages1.getLast? with
                | none => some pages1
                | some l1 =>
                    if l1.size > PAGE_SIZE then
                      (l1.split).map fun ht =>
                        setInsert ht.2 (setInsert ht.1 pages1.dropLast)
                    else some pages1
            else
              match rangeMax pages id with
              | none => none
              | some np =>
                  let pages2 := setRemove np pages
                  (np.insert row).bind fun fp =>
                    if fp.size > PAGE_SIZE then
                      (fp.split).map fun ht =>
                        setInsert ht.2 (setInsert ht.1 pages2)
                    else some (setInsert fp pages2)

/-- `DB::insert_to_page` (mutates only the page index). -/
def DB.insertToPage (db : DB) (id : Nat) (vals : List RowVal) : Option DB :=
  (insertToPageAux db.schema db.pages id vals).map fun ps => { db with pages := ps }

/-- `DB::remove`: `WAL::remove` always runs first (dropping the id from the
WAL map and appending a Delete record to the WAL file); when the map had no
binding the page path runs: empty index or out-of-bounds id return nothing,
otherwise the range query's page is popped, the id removed from it, and the
page re-inserted unless it became empty. `none` models the `unwrap` panic
on an empty range. -/
def DB.remove (db : DB) (id : Nat) : Option (Option (List RowVal) × DB) :=
  let db1 := { db with
    walRecords := mapRemove id db.walRecords,
    walFile := db.walFile ++ (WALRecord.delete id).toBytes }
  match mapLookup id db.walRecords with
  | some v => some (some v, db1)
  | none =>
      match db1.pages with
      | [] => some (none, db1)
      | first :: _ =>
          if id < first.header.startId then some (none, db1)
          else
            match db1.pages.getLast? with
            | none => some (none, db1)
            | some lastP =>
                if lastP.header.endId < id then some (none, db1)
                else
                  match rangeMax db1.pages id with
                  | none => none
                  | some np =>
                      let pages1 := setRemove np db1.pages
                      let rp := np.remove id
                      if rp.2.header.count ≠ 0 then
                        some (rp.1, { db1 with pages := setInsert rp.2 pages1 })
                      else some (rp.1, { db1 with pages := pages1 })

/-- Overwrite `block` into `file` at offset `off`, zero-filling any gap
beyond the current end of file (the effect of `seek` + `write_all`). -/
def writeAt (file : List Nat) (off : Nat) (block : List Nat) : List Nat :=
  (file.take off ++ List.replicate (off - file.length) 0) ++ block ++
    file.drop (off + block.length)

/-- The loop of `DB::serialize`: enumerate the sorted pages and write each
dirty page's block at offset `i * PAGE_SIZE`; `none` models the fatal
oversized-page branch of `to_page_bytes`. -/
def serializeGo (file : List Nat) (i : Nat) : List Page → Option (List Nat)
  | [] => some file
  | p :: rest =>
      if p.dirty then
        (p.toPageBytes).bind fun block =>
          serializeGo (writeAt file (i * PAGE_SIZE) block) (i + 1) rest
      else serializeGo file (i + 1) rest

/-- `DB::serialize`: write the dirty pages into the data file; the file is
never truncated. -/
def DB.serialize (db : DB) : Option (List Nat) :=
  serializeGo db.dataFile 0 db.pages

/-- `DB::sync`: fold every WAL map entry into the pages via
`insert_to_page` (in ascending id order), serialize, then clear the WAL map
and truncate the WAL file to zero length. -/
def DB.sync (db : DB) : Option DB :=
  (db.walRecords.foldlM (fun (d : DB) kv => d.insertToPage kv.1 kv.2) db).bind fun d2 =>
    (d2.serialize).map fun file =>
      { d2 with dataFile := file, walRecords := [], walFile := [] }

/-- Top-level operations of an engine run: `DB::insert` and `DB::sync`. -/
inductive DBOp where
  | ins (id : Nat) (tail : List RowVal)
  | doSync
deriving DecidableEq, Repr

/-- Apply one operation. -/
def applyOp (db : DB) : DBOp → Option DB
  | .ins id tail => some (db.insert id tail)
  | .doSync => db.sync

/-- Run a sequence of operations; `none` when any of them panics. -/
def run (db : DB) (ops : List DBOp) : Option DB :=
  ops.foldlM applyOp db

/-! ## Concrete inputs and invariant definitions used by the claim theorems -/

/-- Schema `[Id, Bytes]`. -/
def schemaIdBytes : List RowType := [RowType.id, RowType.bytes]

/-- A row tail of seventy 58-byte cells: encoded size 4204 with its id,
exceeding `PAGE_SIZE`, while every constituent list stays short. -/
def hugeTail : List RowVal := List.replicate 70 (RowVal.bytes (List.replicate 58 0))

/-- A small one-byte tail. -/
def smallTail : List RowVal := [RowVal.bytes [7]]

/-- Another small one-byte tail. -/
def t5Tail : List RowVal := [RowVal.bytes [5]]

/-- A tail of five hundred U32 cells (2000 bytes); three such rows overflow
one page while each row fits comfortably. -/
def b2000Tail : List RowVal := List.replicate 500 (RowVal.u32 0)

/-- The operation sequence refuting read-your-writes across a sync: an
oversized row under id 9, a sync, an overwrite of id 9, then the probed
insert of id 5 followed by the intervening sync. -/
def c1ops : List DBOp :=
  [DBOp.ins 9 hugeTail, DBOp.doSync, DBOp.ins 9 smallTail,
   DBOp.ins 5 t5Tail, DBOp.doSync]

/-- The operation sequence reaching an index with overlapping page ranges. -/
def c3ops : List DBOp :=
  [DBOp.ins 9 hugeTail, DBOp.doSync, DBOp.ins 5 smallTail,
   DBOp.ins 9 smallTail, DBOp.doSync, DBOp.ins 4 smallTail, DBOp.doSync]

/-- Pairwise strict disjointness of the page key ranges, as a decidable
check over the index. -/
def pagesDisjointB (ps : List Page) : Bool :=
  ps.all fun p => ps.all fun q =>
    (p == q) || decide (p.header.endId < q.header.startId) ||
      decide (q.header.endId < p.header.startId)

/-- The three inserts of 2000-byte rows whose sync-time fold overflows a
page without ever triggering the split policy. -/
def c4ops : List DBOp :=
  [DBOp.ins 1 b2000Tail, DBOp.ins 2 b2000Tail, DBOp.ins 3 b2000Tail, DBOp.doSync]

/-- The single page produced by the sync-time fold of the three 2004-byte
rows: never split, encoded size 6024. -/
def c4Page : Page :=
  { header := { endId := 3, startId := 1, count := 3 },
    data := [(1, b2000Tail), (2, b2000Tail), (3, b2000Tail)], dirty := true,
    size := sizeOfRows [RowVal.id 1 :: b2000Tail], schema := schemaIdU32 }

/-- The database state right before the failing sync of `c4ops`. -/
def c4dbPre : DB :=
  ((emptyDB schemaIdU32).insert 1 b2000Tail).insert 2 b2000Tail |>.insert 3 b2000Tail

/-- The database after the page fold of `c4dbPre` (before serialization). -/
def c4Folded : DB := { c4dbPre with pages := [c4Page] }

/-- The page fold of `DB::sync` in isolation (the loop over the cloned WAL
map preceding serialization). -/
def dbFoldWal (db : DB) : Option DB :=
  db.walRecords.foldlM (fun (d : DB) kv => d.insertToPage kv.1 kv.2) db

/-- The resulting database of removing id 1 from a fresh database. -/
def c6resDB : DB :=
  { pages := [], dataFile := [], walRecords := [],
    walFile := [0, 0, 0, 0, 1, 0, 0, 0], schema := schemaIdU32 }

/-- A clean single-row page as produced by loading from disk
(`Page::from_bytes` yields `dirty = false`). -/
def cleanPage : Page :=
  { header := { endId := 1, startId := 1, count := 1 },
    data := [(1, [RowVal.u32 5])], dirty := false, size := 8,
    schema := schemaIdU32 }

/-- A database whose data file holds two stale blocks while the index holds
one clean page. -/
def db7 : DB :=
  { pages := [cleanPage], dataFile := List.replicate 8192 7,
    walRecords := [], walFile := [], schema := schemaIdU32 }

/-- Pages `[1,2]`, `[4,5]`, `[7,9]` of a partition-invariant index. -/
def c2page1 : Page :=
  { header := { endId := 2, startId := 1, count := 2 },
    data := [(1, [RowVal.u32 10]), (2, [RowVal.u32 20])], dirty := false,
    size := 16, schema := schemaIdU32 }

/-- The middle page `[4,5]` covering id 4. -/
def c2page2 : Page :=
  { header := { endId := 5, startId := 4, count := 2 },
    data := [(4, [RowVal.u32 40]), (5, [RowVal.u32 50])], dirty := false,
    size := 16, schema := schemaIdU32 }

/-- The last page `[7,9]`. -/
def c2page3 : Page :=
  { header := { endId := 9, startId := 7, count := 2 },
    data := [(7, [RowVal.u32 70]), (9, [RowVal.u32 90])], dirty := false,
    size := 16, schema := schemaIdU32 }

/-- A three-page database satisfying the partition invariants, with an
empty WAL. -/
def c2db : DB :=
  { pages := [c2page1, c2page2, c2page3], dataFile := [], walRecords := [],
    walFile := [], schema := schemaIdU32 }

/-- A two-page database (id 4 covered by the last page) for the amended
routing theorem's witness. -/
def c2wdb : DB :=
  { pages := [c2page1, c2page2], dataFile := [], walRecords := [],
    walFile := [], schema := schemaIdU32 }

/-- Strictly ascending keys: the well-formedness of a `BTreeMap` image. -/
def mapWf {α : Type} (l : List (Nat × α)) : Prop :=
  List.Pairwise (fun a b => a.1 < b.1) l

/-- All keys are valid non-zero u32 ids. -/
def keysBounded {α : Type} (l : List (Nat × α)) : Prop :=
  ∀ kv ∈ l, 1 ≤ kv.1 ∧ kv.1 ≤ u32MAX

/-- Consistency of a page: non-empty sorted data with bounded keys, and a
header whose `start`/`end`/`count` agree with the data map. -/
def PageWf (p : Page) : Prop :=
  p.data ≠ [] ∧ mapWf p.data ∧ keysBounded p.data ∧
  p.header.startId = headKeyD p.data ∧ p.header.endId = lastKeyD p.data ∧
  p.header.count = p.data.length

/-- Total encoded cell size of a row (the summand of `Page::new`'s size). -/
def cellsSize (row : List RowVal) : Nat := (row.map RowVal.size).sum

/-- Invariant of the reachable page indexes when every inserted row fits in
a page: at most one page, consistent, with its `size` field bounded by
`PAGE_SIZE` (so the split policy never fires) and dirty as soon as it holds
two rows. -/
def GoodPages : List Page → Prop
  | [] => True
  | [p] => PageWf p ∧ p.size ≤ PAGE_SIZE ∧ (2 ≤ p.header.count → p.dirty = true)
  | _ => False

/-- Well-formedness of the in-memory WAL map: sorted, with bounded ids and
rows that fit in a page. -/
def WalWf (l : List (Nat × List RowVal)) : Prop :=
  mapWf l ∧ ∀ kv ∈ l, 1 ≤ kv.1 ∧ kv.1 ≤ u32MAX ∧
    cellsSize (RowVal.id kv.1 :: kv.2) ≤ PAGE_SIZE

/-- Database invariant combining the page and WAL invariants. -/
def DBWf (db : DB) : Prop := GoodPages db.pages ∧ WalWf db.walRecords

/-- Well-formed operations: non-zero u32 ids and rows that fit in a page. -/
def OpWf : DBOp → Prop
  | .ins id tail => 1 ≤ id ∧ id ≤ u32MAX ∧
      cellsSize (RowVal.id id :: tail) ≤ PAGE_SIZE
  | .doSync => True

/-- Lookup in a single-page index (the shape maintained by `GoodPages`). -/
def pagesGet : List Page → Nat → Option (List RowVal)
  | [p], k => mapLookup k p.data
  | _, _ => none

/-- The byte encoding of one row (id cell followed by the tail cells). -/
def rowEnc (row : List RowVal) : List Nat := (row.map RowVal.toBytes).flatten

/-- The full row stored for a data map entry. -/
def rowOfEntry (kv : Nat × List RowVal) : List RowVal := RowVal.id kv.1 :: kv.2

/-- The id of a row (0 for a malformed row). -/
def rowKey (r : List RowVal) : Nat :=
  match splitRow r with
  | some kv => kv.1
  | none => 0

/-- A cell is well-typed for a column kind and within the codec's numeric
ranges (non-zero u32 id, u32 value, Bytes shorter than `2^16`). -/
def cellOk : RowType → RowVal → Prop
  | .id, .id n => 1 ≤ n ∧ n ≤ u32MAX
  | .u32, .u32 n => n < 4294967296
  | .bytes, .bytes b => b.length < 65536
  | .bool, .bool _ => True
  | _, _ => False

/-- A row matches a schema cell by cell. -/
def rowOk (schema : List RowType) (row : List RowVal) : Prop :=
  List.Forall₂ cellOk schema row

/-- The round trip of the page codec at a fixed schema. -/
def pageRoundTrip (p : Page) (schema : List RowType) : Option Page :=
  (p.toPageBytes).bind fun bs => Page.fromBytes bs schema

/-- Duplicate-id rows on which `Page::new` double-counts the size. -/
def c9rows : List (List RowVal) :=
  [[RowVal.id 1, RowVal.u32 5], [RowVal.id 1, RowVal.u32 5]]

/-- Distinct-id rows for the amended page round-trip witness. -/
def c9wrows : List (List RowVal) :=
  [[RowVal.id 1, RowVal.u32 10], [RowVal.id 2, RowVal.u32 20]]

/-- The page built by `Page::new` from the distinct-id rows `c9wrows`. -/
def c9wP : Page :=
  { header := { endId := 2, startId := 1, count := 2 },
    data := [(1, [RowVal.u32 10]), (2, [RowVal.u32 20])], dirty := false,
    size := 16, schema := schemaIdU32 }

instance cellOkDec : (t : RowType) → (c : RowVal) → Decidable (cellOk t c)
  | .id, .id n => inferInstanceAs (Decidable (1 ≤ n ∧ n ≤ u32MAX))
  | .id, .u32 _ => inferInstanceAs (Decidable False)
  | .id, .bytes _ => inferInstanceAs (Decidable False)
  | .id, .bool _ => inferInstanceAs (Decidable False)
  | .u32, .id _ => inferInstanceAs (Decidable False)
  | .u32, .u32 n => inferInstanceAs (Decidable (n < 4294967296))
  | .u32, .bytes _ => inferInstanceAs (Decidable False)
  | .u32, .bool _ => inferInstanceAs (Decidable False)
  | .bytes, .id _ => inferInstanceAs (Decidable False)
  | .bytes, .u32 _ => inferInstanceAs (Decidable False)
  | .bytes, .bytes b => inferInstanceAs (Decidable (b.length < 65536))
  | .bytes, .bool _ => inferInstanceAs (Decidable False)
  | .bool, .id _ => inferInstanceAs (Decidable False)
  | .bool, .u32 _ => inferInstanceAs (Decidable False)
  | .bool, .bytes _ => inferInstanceAs (Decidable False)
  | .bool, .bool _ => inferInstanceAs (Decidable True)

instance forall2CellOkDec :
    (s : List RowType) → (r : List RowVal) → Decidable (List.Forall₂ cellOk s r)
  | [], [] => isTrue List.Forall₂.nil
  | [], _ :: _ => isFalse fun h => by cases h
  | _ :: _, [] => isFalse fun h => by cases h
  | t :: ts, c :: cs =>
      match cellOkDec t c, forall2CellOkDec ts cs with
      | isTrue h1, isTrue h2 => isTrue (List.Forall₂.cons h1 h2)
      | isFalse h1, _ => isFalse fun h => by
          cases h with
          | cons ha hb => exact h1 ha
      | _, isFalse h2 => isFalse fun h => by
          cases h with
          | cons ha hb => exact h2 hb

instance (s : List RowType) (r : List RowVal) : Decidable (rowOk s r) :=
  inferInstanceAs (Decidable (List.Forall₂ cellOk s r))

instance (p : Page) : Decidable (PageWf p) := by
  unfold PageWf mapWf keysBounded
  infer_instance

instance : (op : DBOp) → Decidable (OpWf op)
  | .ins id tail =>
      inferInstanceAs (Decidable (1 ≤ id ∧ id ≤ u32MAX ∧
        cellsSize (RowVal.id id :: tail) ≤ PAGE_SIZE))
  | .doSync => inferInstanceAs (Decidable True)

/-- The database reached from empty by `insert 1 [U32 5]; sync`: one clean
single-row page (nothing was written since the page stayed clean). -/
def c1wDB : DB :=
  { pages := [{ header := { endId := 1, startId := 1, count := 1 },
                data := [(1, [RowVal.u32 5])], dirty := false, size := 8,
                schema := schemaIdU32 }],
    dataFile := [], walRecords := [], walFile := [], schema := schemaIdU32 }

/-- A well-formed operation sequence whose rows all fit in a page. -/
def c3wops : List DBOp := [DBOp.ins 1 [RowVal.u32 5], DBOp.doSync]

/-! ## Helper lemmas: comparisons and sorted maps -/

theorem natCmp_self (a : Nat) : natCmp a a = .eq := by
  simp [natCmp]

theorem natCmp_lt {a b : Nat} (h : a < b) : natCmp a b = .lt := by
  simp [natCmp, h]

theorem natCmp_gt {a b : Nat} (h : b < a) : natCmp a b = .gt := by
  unfold natCmp
  rw [if_neg (by omega), if_neg (by omega)]

theorem boolCmp_self (b : Bool) : boolCmp b b = .eq := by
  cases b <;> rfl

theorem listCmpWith_self {α : Type} (f : α → α → Ordering) (l : List α)
    (h : ∀ x ∈ l, f x x = .eq) : listCmpWith f l l = .eq := by
  induction l with
  | nil => rfl
  | cons a as ih =>
      simp only [listCmpWith, h a (by simp), ordAnd]
      exact ih fun x hx => h x (by simp [hx])

theorem rowValCmp_self (x : RowVal) : rowValCmp x x = .eq := by
  cases x with
  | id n => simp [rowValCmp, natCmp_self]
  | u32 n => simp [rowValCmp, natCmp_self]
  | bytes b => simp [rowValCmp, listCmpWith_self natCmp b fun x _ => natCmp_self x]
  | bool b => simp [rowValCmp, boolCmp_self]

theorem pairCmp_self (x : Nat × List RowVal) : pairCmp x x = .eq := by
  simp [pairCmp, natCmp_self, ordAnd,
    listCmpWith_self rowValCmp x.2 fun y _ => rowValCmp_self y]

theorem rowTypeCmp_self (x : RowType) : rowTypeCmp x x = .eq := by
  simp [rowTypeCmp, natCmp_self]

theorem headerCmp_self (h : PageHeader) : headerCmp h h = .eq := by
  simp [headerCmp, natCmp_self, ordAnd]

theorem pageCmp_self (p : Page) : pageCmp p p = .eq := by
  simp [pageCmp, headerCmp_self, ordAnd,
    listCmpWith_self pairCmp p.data fun x _ => pairCmp_self x,
    boolCmp_self, natCmp_self,
    listCmpWith_self rowTypeCmp p.schema fun x _ => rowTypeCmp_self x]

theorem setRemove_singleton (p : Page) : setRemove p [p] = [] := by
  simp [setRemove, pageCmp_self]

theorem mapInsert_ne_nil {α : Type} (k : Nat) (v : α) (l : List (Nat × α)) :
    mapInsert k v l ≠ [] := by
  cases l with
  | nil => simp [mapInsert]
  | cons a rest =>
      obtain ⟨k1, v1⟩ := a
      simp only [mapInsert]
      split <;> [skip; split] <;> simp

theorem mapLookup_mapInsert_self {α : Type} (k : Nat) (v : α)
    (l : List (Nat × α)) : mapLookup k (mapInsert k v l) = some v := by
  induction l with
  | nil => simp [mapInsert, mapLookup]
  | cons a rest ih =>
      obtain ⟨k1, v1⟩ := a
      simp only [mapInsert]
      split
      · simp [mapLookup]
      · split
        · simp [mapLookup]
        · have hne : k ≠ k1 := by omega
          simp [mapLookup, hne, ih]

theorem mapLookup_mapInsert_ne {α : Type} {k k' : Nat} (h : k' ≠ k) (v : α)
    (l : List (Nat × α)) : mapLookup k' (mapInsert k v l) = mapLookup k' l := by
  induction l with
  | nil => simp [mapInsert, mapLookup, h]
  | cons a rest ih =>
      obtain ⟨k1, v1⟩ := a
      simp only [mapInsert]
      split
      · simp [mapLookup, h]
      · split
        · rename_i h1 h2
          subst h2
          simp [mapLookup, h]
        · simp only [mapLookup, ih]

theorem mapInsert_mem {α : Type} {kv : Nat × α} {k : Nat} {v : α}
    {l : List (Nat × α)} (h : kv ∈ mapInsert k v l) : kv = (k, v) ∨ kv ∈ l := by
  induction l with
  | nil => simp [mapInsert] at h; simp [h]
  | cons a rest ih =>
      obtain ⟨k1, v1⟩ := a
      simp only [mapInsert] at h
      split at h
      · simp only [List.mem_cons] at h
        rcases h with h | h | h
        · simp [h]
        · simp [List.mem_cons, h]
        · simp [List.mem_cons, h]
      · split at h
        · simp only [List.mem_cons] at h
          rcases h with h | h
          · simp [h]
          · simp [List.mem_cons, h]
        · simp only [List.mem_cons] at h
          rcases h with h | h
          · simp [List.mem_cons, h]
          · rcases ih h with h2 | h2
            · simp [h2]
            · simp [List.mem_cons, h2]

theorem mem_mapInsert_self {α : Type} (k : Nat) (v : α) (l : List (Nat × α)) :
    (k, v) ∈ mapInsert k v l := by
  induction l with
  | nil => simp [mapInsert]
  | cons a rest ih =>
      obtain ⟨k1, v1⟩ := a
      simp only [mapInsert]
      split
      · simp
      · split
        · simp
        · simp [ih]

theorem mapInsert_sorted {α : Type} {k : Nat} {v : α} {l : List (Nat × α)}
    (h : mapWf l) : mapWf (mapInsert k v l) := by
  induction l with
  | nil => simp [mapInsert, mapWf]
  | cons a rest ih =>
      obtain ⟨k1, v1⟩ := a
      rw [mapWf, List.pairwise_cons] at h
      obtain ⟨h1, h2⟩ := h
      simp only [mapInsert]
      split
      · rw [mapWf, List.pairwise_cons]
        refine ⟨?_, ?_⟩
        · intro b hb
          rcases List.mem_cons.1 hb with hb | hb
          · subst hb; omega
          · have := h1 b hb; omega
        · rw [mapWf, List.pairwise_cons] at *
          exact ⟨h1, h2⟩
      · split
        · rename_i hlt heq
          subst heq
          rw [mapWf, List.pairwise_cons]
          exact ⟨h1, h2⟩
        · rename_i hlt heq
          rw [mapWf, List.pairwise_cons]
          refine ⟨?_, ih h2⟩
          intro b hb
          rcases mapInsert_mem hb with hb | hb
          · subst hb; omega
          · exact h1 b hb

theorem mapLookup_mem {α : Type} {k : Nat} {v : α} {l : List (Nat × α)}
    (h : mapLookup k l = some v) : (k, v) ∈ l := by
  induction l with
  | nil => simp [mapLookup] at h
  | cons a rest ih =>
      obtain ⟨k1, v1⟩ := a
      simp only [mapLookup] at h
      split at h
      · rename_i heq
        subst heq
        simp at h
        simp [h]
      · simp [ih h]

theorem lastKeyD_cons_cons (a b : Nat × List RowVal) (t : List (Nat × List RowVal)) :
    lastKeyD (a :: b :: t) = lastKeyD (b :: t) := by
  simp [lastKeyD, List.getLast?_cons_cons]

theorem lastKeyD_mem {l : List (Nat × List RowVal)} (h : l ≠ []) :
    ∃ w, (lastKeyD l, w) ∈ l := by
  induction l with
  | nil => exact absurd rfl h
  | cons a rest ih =>
      cases rest with
      | nil =>
          refine ⟨a.2, ?_⟩
          simp [lastKeyD, List.getLast?]
      | cons b t =>
          obtain ⟨w, hw⟩ := ih (by simp)
          rw [lastKeyD_cons_cons]
          exact ⟨w, by simp [hw]⟩

theorem le_lastKeyD_of_mem {l : List (Nat × List RowVal)}
    {kv : Nat × List RowVal} (hs : mapWf l) (hm : kv ∈ l) :
    kv.1 ≤ lastKeyD l := by
  induction l with
  | nil => simp at hm
  | cons a rest ih =>
      rw [mapWf, List.pairwise_cons] at hs
      obtain ⟨h1, h2⟩ := hs
      cases rest with
      | nil =>
          simp at hm
          simp [hm, lastKeyD, List.getLast?]
      | cons b t =>
          rw [lastKeyD_cons_cons]
          rcases List.mem_cons.1 hm with hm | hm
          · subst hm
            obtain ⟨w, hw⟩ := lastKeyD_mem (show (b :: t) ≠ [] by simp)
            have := h1 _ hw
            omega
          · exact ih h2 hm

theorem headKeyD_le_of_mem {l : List (Nat × List RowVal)}
    {kv : Nat × List RowVal} (hs : mapWf l) (hm : kv ∈ l) :
    headKeyD l ≤ kv.1 := by
  cases l with
  | nil => simp at hm
  | cons a rest =>
      rw [mapWf, List.pairwise_cons] at hs
      rcases List.mem_cons.1 hm with hm | hm
      · subst hm; simp [headKeyD]
      · have := hs.1 _ hm
        simp [headKeyD]
        omega

theorem headKeyD_mem {l : List (Nat × List RowVal)} (h : l ≠ []) :
    ∃ w, (headKeyD l, w) ∈ l := by
  cases l with
  | nil => exact absurd rfl h
  | cons a rest => exact ⟨a.2, by simp [headKeyD]⟩

theorem headKeyD_mapInsert (k : Nat) (v : List RowVal)
    {l : List (Nat × List RowVal)} (h : l ≠ []) :
    headKeyD (mapInsert k v l) = min k (headKeyD l) := by
  cases l with
  | nil => exact absurd rfl h
  | cons a rest =>
      obtain ⟨k1, v1⟩ := a
      simp only [mapInsert]
      split
      · simp [headKeyD]; omega
      · split
        · rename_i h1 h2
          subst h2
          simp [headKeyD]
        · simp [headKeyD]; omega

theorem lastKeyD_mapInsert (k : Nat) (v : List RowVal)
    {l : List (Nat × List RowVal)} (hs : mapWf l) (h : l ≠ []) :
    lastKeyD (mapInsert k v l) = max k (lastKeyD l) := by
  induction l with
  | nil => exact absurd rfl h
  | cons a rest ih =>
      obtain ⟨k1, v1⟩ := a
      rw [mapWf, List.pairwise_cons] at hs
      obtain ⟨h1, h2⟩ := hs
      simp only [mapInsert]
      split
      · rename_i hlt
        rw [lastKeyD_cons_cons]
        have hwf : mapWf ((k1, v1) :: rest) := List.pairwise_cons.mpr ⟨h1, h2⟩
        have hk0 := le_lastKeyD_of_mem hwf (List.mem_cons_self (k1, v1) rest)
        have hk1 : k1 ≤ lastKeyD ((k1, v1) :: rest) := hk0
        omega
      · split
        · rename_i hlt heq
          subst heq
          cases rest with
          | nil => simp [lastKeyD, List.getLast?]
          | cons b t =>
              rw [lastKeyD_cons_cons, lastKeyD_cons_cons]
              obtain ⟨w, hw⟩ := lastKeyD_mem (show (b :: t) ≠ [] by simp)
              have h3 := h1 _ hw
              have hk1 : k < lastKeyD (b :: t) := h3
              omega
        · rename_i hlt heq
          cases rest with
          | nil =>
              simp [mapInsert, lastKeyD, List.getLast?]
              omega
          | cons b t =>
              have hne : mapInsert k v (b :: t) ≠ [] := mapInsert_ne_nil _ _ _
              obtain ⟨c, u, hcu⟩ : ∃ c u, mapInsert k v (b :: t) = c :: u := by
                cases hmi : mapInsert k v (b :: t) with
                | nil => exact absurd hmi hne
                | cons c u => exact ⟨c, u, rfl⟩
              rw [hcu, lastKeyD_cons_cons, ← hcu, ih h2 (by simp),
                lastKeyD_cons_cons]

/-! ## Preservation of the single-page invariant by the sync-time fold -/

theorem keysBounded_mapInsert {α : Type} {l : List (Nat × α)} {k : Nat}
    (hb : keysBounded l) (h1 : 1 ≤ k) (h2 : k ≤ u32MAX) (v : α) :
    keysBounded (mapInsert k v l) := by
  intro kv hkv
  rcases mapInsert_mem hkv with h | h
  · subst h; exact ⟨h1, h2⟩
  · exact hb kv h

/-- The page produced by `Page::insert` of the row `id :: vals`. -/
def pageIns (p : Page) (id : Nat) (vals : List RowVal) : Page :=
  { p with
    header := { startId := min p.header.startId id,
                endId := max p.header.endId id,
                count := (mapInsert id vals p.data).length },
    data := mapInsert id vals p.data, dirty := true }

theorem Page.insert_eq (p : Page) (id : Nat) (vals : List RowVal) :
    p.insert (RowVal.id id :: vals) = some (pageIns p id vals) := rfl

theorem PageWf_pageIns {p : Page} (hwf : PageWf p) {id : Nat} (h1 : 1 ≤ id)
    (h2 : id ≤ u32MAX) (vals : List RowVal) : PageWf (pageIns p id vals) := by
  obtain ⟨hne, hs, hb, hstart, hend, hcount⟩ := hwf
  refine ⟨mapInsert_ne_nil _ _ _, mapInsert_sorted hs,
    keysBounded_mapInsert hb h1 h2 vals, ?_, ?_, rfl⟩
  · show min p.header.startId id = headKeyD (mapInsert id vals p.data)
    rw [headKeyD_mapInsert id vals hne, hstart]
    omega
  · show max p.header.endId id = lastKeyD (mapInsert id vals p.data)
    rw [lastKeyD_mapInsert id vals hs hne, hend]
    omega

theorem sizeOfRows_single (r : List RowVal) :
    sizeOfRows [r] = cellsSize r % 65536 := by
  simp [sizeOfRows, cellsSize]

theorem Page.new_single (s : List RowType) (id : Nat) (vals : List RowVal) :
    Page.new [RowVal.id id :: vals] s = some
      { header := { endId := id, startId := id, count := 1 },
        data := [(id, vals)], dirty := false,
        size := sizeOfRows [RowVal.id id :: vals], schema := s } := rfl

theorem insertToPageAux_step {s : List RowType} {ps ps' : List Page} {id : Nat}
    {vals : List RowVal} (hg : GoodPages ps) (h1 : 1 ≤ id) (h2 : id ≤ u32MAX)
    (h3 : cellsSize (RowVal.id id :: vals) ≤ PAGE_SIZE)
    (h : insertToPageAux s ps id vals = some ps') :
    GoodPages ps' ∧ pagesGet ps' id = some vals ∧
      ∀ k, k ≠ id → pagesGet ps' k = pagesGet ps k := by
  match ps with
  | [] =>
      rw [show insertToPageAux s [] id vals =
          (Page.new [RowVal.id id :: vals] s).map (fun p => setInsert p []) from rfl,
        Page.new_single] at h
      simp only [Option.map_some', Option.some.injEq] at h
      subst h
      refine ⟨⟨?_, ?_, ?_⟩, ?_, ?_⟩
      · exact ⟨by simp, List.pairwise_singleton _ _, by
          intro kv hkv
          simp at hkv
          subst hkv
          exact ⟨h1, h2⟩, rfl, rfl, rfl⟩
      · show sizeOfRows [RowVal.id id :: vals] ≤ PAGE_SIZE
        rw [sizeOfRows_single]
        have : cellsSize (RowVal.id id :: vals) % 65536 =
            cellsSize (RowVal.id id :: vals) :=
          Nat.mod_eq_of_lt (by unfold PAGE_SIZE at h3; omega)
        omega
      · intro habs
        exact absurd habs (by norm_num)
      · show mapLookup id [(id, vals)] = some vals
        simp [mapLookup]
      · intro k hk
        show mapLookup k [(id, vals)] = none
        simp [mapLookup, hk]
  | [p] =>
      obtain ⟨hwf, hsz, hdirty⟩ := hg
      have hconc : GoodPages [pageIns p id vals] ∧
          pagesGet [pageIns p id vals] id = some vals ∧
          ∀ k, k ≠ id → pagesGet [pageIns p id vals] k = pagesGet [p] k := by
        refine ⟨⟨PageWf_pageIns hwf h1 h2 vals, hsz, fun _ => rfl⟩, ?_, ?_⟩
        · show mapLookup id (mapInsert id vals p.data) = some vals
          exact mapLookup_mapInsert_self id vals p.data
        · intro k hk
          show mapLookup k (mapInsert id vals p.data) = mapLookup k p.data
          exact mapLookup_mapInsert_ne hk vals p.data
      simp only [insertToPageAux] at h
      split at h
      · -- prepend: id < first.start
        rw [Page.insert_eq] at h
        simp only [Option.some_bind] at h
        split at h
        · rename_i hnil
          exact absurd hnil (by simp [setInsert])
        · rename_i f1 rest1 hcons
          rw [show setInsert (pageIns p id vals) [] = [pageIns p id vals] from rfl]
            at hcons h
          injection hcons with hf1 hrest1
          subst hf1
          subst hrest1
          split at h
          · rename_i hbig
            have hbig2 : p.size > PAGE_SIZE := hbig
            omega
          · simp only [Option.some.injEq] at h
            subst h
            exact hconc
      · -- not prepend
        split at h
        · rename_i hgl
          exact absurd hgl (by simp)
        · rename_i lastP hgl
          rw [show ([p] : List Page).getLast? = some p from rfl] at hgl
          injection hgl with hlp
          subst hlp
          split at h
          · -- append: last.end < id
            rw [Page.insert_eq] at h
            simp only [Option.some_bind] at h
            rw [show ([p] : List Page).dropLast = [] from rfl] at h
            rw [show setInsert (pageIns p id vals) [] = [pageIns p id vals] from rfl] at h
            split at h
            · rename_i hgl2
              exact absurd hgl2 (by simp)
            · rename_i l1 hgl2
              rw [show ([pageIns p id vals] : List Page).getLast? =
                  some (pageIns p id vals) from rfl] at hgl2
              injection hgl2 with hl1
              subst hl1
              split at h
              · rename_i hbig
                have hbig2 : p.size > PAGE_SIZE := hbig
                omega
              · simp only [Option.some.injEq] at h
                subst h
                exact hconc
          · -- middle: range query
            split at h
            · exact absurd h (by simp)
            · rename_i np hnp
              have hnp2 : np = p := by
                by_cases hir : inRange p id = true
                · have hr : rangeMax [p] id = some p := by
                    simp [rangeMax, List.filter, hir]
                  rw [hr] at hnp
                  injection hnp with hx
                  exact hx.symm
                · have hr : rangeMax [p] id = none := by
                    simp [rangeMax, List.filter, hir]
                  rw [hr] at hnp
                  cases hnp
              subst hnp2
              rw [setRemove_singleton, Page.insert_eq] at h
              simp only [Option.some_bind] at h
              split at h
              · rename_i hbig
                have hbig2 : np.size > PAGE_SIZE := hbig
                omega
              · simp only [Option.some.injEq] at h
                rw [show setInsert (pageIns np id vals) [] = [pageIns np id vals] from rfl]
                  at h
                subst h
                exact hconc
  | p :: q :: rest => exact absurd hg (by simp [GoodPages])

theorem DB.insertToPage_frame {db db' : DB} {id : Nat} {vals : List RowVal}
    (h : db.insertToPage id vals = some db') :
    db'.dataFile = db.dataFile ∧ db'.walRecords = db.walRecords ∧
    db'.walFile = db.walFile ∧ db'.schema = db.schema ∧
    insertToPageAux db.schema db.pages id vals = some db'.pages := by
  unfold DB.insertToPage at h
  cases haux : insertToPageAux db.schema db.pages id vals with
  | none => rw [haux] at h; cases h
  | some ps =>
      rw [haux] at h
      simp only [Option.map_some', Option.some.injEq] at h
      subst h
      exact ⟨rfl, rfl, rfl, rfl, rfl⟩

theorem foldlM_insertToPage_cons (F : DB → Nat × List RowVal → Option DB)
    (d : DB) (kv : Nat × List RowVal) (rest : List (Nat × List RowVal)) :
    List.foldlM F d (kv :: rest) = (F d kv).bind fun d1 => List.foldlM F d1 rest :=
  rfl

/-- Bound-entry hypothesis for the WAL fold. -/
def entryOk (kv : Nat × List RowVal) : Prop :=
  1 ≤ kv.1 ∧ kv.1 ≤ u32MAX ∧ cellsSize (RowVal.id kv.1 :: kv.2) ≤ PAGE_SIZE

theorem foldWal_good : ∀ (entries : List (Nat × List RowVal)) (d d2 : DB),
    GoodPages d.pages → (∀ kv ∈ entries, entryOk kv) →
    List.foldlM (fun (x : DB) kv => x.insertToPage kv.1 kv.2) d entries = some d2 →
    GoodPages d2.pages ∧ d2.dataFile = d.dataFile ∧ d2.walRecords = d.walRecords ∧
      d2.walFile = d.walFile ∧ d2.schema = d.schema
  | [], d, d2, hg, _, h => by
      simp only [List.foldlM_nil] at h
      cases h
      exact ⟨hg, rfl, rfl, rfl, rfl⟩
  | (k, v) :: rest, d, d2, hg, hb, h => by
      rw [foldlM_insertToPage_cons] at h
      cases h1 : d.insertToPage k v with
      | none => rw [h1] at h; cases h
      | some d1 =>
          rw [h1] at h
          simp only [Option.some_bind] at h
          obtain ⟨hdf, hwr, hwf2, hsch, haux⟩ := DB.insertToPage_frame h1
          obtain ⟨hek, hek2, hek3⟩ := hb _ (List.mem_cons_self _ _)
          have hstep := insertToPageAux_step hg hek hek2 hek3 haux
          obtain ⟨ihg, ihdf, ihwr, ihwf, ihsch⟩ :=
            foldWal_good rest d1 d2 hstep.1
              (fun kv hkv => hb kv (List.mem_cons_of_mem _ hkv)) h
          exact ⟨ihg, ihdf.trans hdf, ihwr.trans hwr, ihwf.trans hwf2,
            ihsch.trans hsch⟩

theorem foldWal_preserve : ∀ (entries : List (Nat × List RowVal)) (d d2 : DB)
    (k : Nat), GoodPages d.pages → (∀ kv ∈ entries, entryOk kv) →
    (∀ kv ∈ entries, kv.1 ≠ k) →
    List.foldlM (fun (x : DB) kv => x.insertToPage kv.1 kv.2) d entries = some d2 →
    pagesGet d2.pages k = pagesGet d.pages k
  | [], d, d2, k, hg, _, _, h => by
      simp only [List.foldlM_nil] at h
      cases h
      rfl
  | (k1, v1) :: rest, d, d2, k, hg, hb, hne, h => by
      rw [foldlM_insertToPage_cons] at h
      cases h1 : d.insertToPage k1 v1 with
      | none => rw [h1] at h; cases h
      | some d1 =>
          rw [h1] at h
          simp only [Option.some_bind] at h
          obtain ⟨hdf, hwr, hwf2, hsch, haux⟩ := DB.insertToPage_frame h1
          obtain ⟨hek, hek2, hek3⟩ := hb _ (List.mem_cons_self _ _)
          have hstep := insertToPageAux_step hg hek hek2 hek3 haux
          have hpres := hstep.2.2 k (by
            have := hne _ (List.mem_cons_self _ _)
            exact fun hk => this (by omega))
          have ih := foldWal_preserve rest d1 d2 k hstep.1
            (fun kv hkv => hb kv (List.mem_cons_of_mem _ hkv))
            (fun kv hkv => hne kv (List.mem_cons_of_mem _ hkv)) h
          rw [ih, hpres]

theorem foldWal_tracks : ∀ (entries : List (Nat × List RowVal)) (d d2 : DB)
    (id : Nat) (tail : List RowVal), GoodPages d.pages →
    (∀ kv ∈ entries, entryOk kv) → mapWf entries → (id, tail) ∈ entries →
    List.foldlM (fun (x : DB) kv => x.insertToPage kv.1 kv.2) d entries = some d2 →
    pagesGet d2.pages id = some tail
  | [], _, _, _, _, _, _, _, hm, _ => by cases hm
  | (k1, v1) :: rest, d, d2, id, tail, hg, hb, hwf, hm, h => by
      rw [foldlM_insertToPage_cons] at h
      cases h1 : d.insertToPage k1 v1 with
      | none => rw [h1] at h; cases h
      | some d1 =>
          rw [h1] at h
          simp only [Option.some_bind] at h
          obtain ⟨hdf, hwr, hwf2, hsch, haux⟩ := DB.insertToPage_frame h1
          obtain ⟨hek, hek2, hek3⟩ := hb _ (List.mem_cons_self _ _)
          have hstep := insertToPageAux_step hg hek hek2 hek3 haux
          rw [mapWf, List.pairwise_cons] at hwf
          by_cases hk : k1 = id
          · subst hk
            have hv : v1 = tail := by
              rcases List.mem_cons.1 hm with hm1 | hm1
              · injection hm1 with hh1 hh2
                exact hh2.symm
              · exact absurd (hwf.1 _ hm1) (by omega)
            subst hv
            have := foldWal_preserve rest d1 d2 k1 hstep.1
              (fun kv hkv => hb kv (List.mem_cons_of_mem _ hkv))
              (fun kv hkv => by have := hwf.1 _ hkv; omega) h
            rw [this, hstep.2.1]
          · have hm1 : (id, tail) ∈ rest := by
              rcases List.mem_cons.1 hm with hm1 | hm1
              · exact absurd (congrArg Prod.fst hm1) (by simp [hk, Ne.symm])
              · exact hm1
            exact foldWal_tracks rest d1 d2 id tail hstep.1
              (fun kv hkv => hb kv (List.mem_cons_of_mem _ hkv)) hwf.2 hm1 h

theorem ordAnd_gt (x : Ordering) : ordAnd .gt x = .gt := rfl

theorem ordAnd_eq (x : Ordering) : ordAnd .eq x = x := rfl

theorem ordAnd_lt (x : Ordering) : ordAnd .lt x = .lt := rfl

theorem writeAt_length (file : List Nat) (off : Nat) (block : List Nat) :
    (writeAt file off block).length = max (off + block.length) file.length := by
  simp [writeAt]
  omega

theorem serializeGo_mono : ∀ (ps : List Page) (file : List Nat) (i : Nat)
    (out : List Nat), serializeGo file i ps = some out → file.length ≤ out.length
  | [], file, i, out, h => by
      simp only [serializeGo, Option.some.injEq] at h
      subst h
      exact le_refl _
  | p :: rest, file, i, out, h => by
      simp only [serializeGo] at h
      split at h
      · cases hb : p.toPageBytes with
        | none => rw [hb] at h; cases h
        | some block =>
            rw [hb] at h
            simp only [Option.some_bind] at h
            have h2 := serializeGo_mono rest _ _ _ h
            have hw := writeAt_length file (i * PAGE_SIZE) block
            omega
      · exact serializeGo_mono rest _ _ _ h

theorem serializeGo_clean : ∀ (ps : List Page) (file : List Nat) (i : Nat),
    (∀ p ∈ ps, p.dirty = false) → serializeGo file i ps = some file
  | [], _, _, _ => rfl
  | p :: rest, file, i, h => by
      simp only [serializeGo]
      rw [if_neg (by simp [h p (List.mem_cons_self _ _)])]
      exact serializeGo_clean rest file (i + 1)
        fun q hq => h q (List.mem_cons_of_mem _ hq)

theorem serialize_single_dirty {db : DB} {p : Page} {out : List Nat}
    (hp : db.pages = [p]) (hd : p.dirty = true) (h : db.serialize = some out) :
    ∃ block, p.toPageBytes = some block := by
  unfold DB.serialize at h
  rw [hp] at h
  simp only [serializeGo] at h
  rw [if_pos hd] at h
  cases hb : p.toPageBytes with
  | none => rw [hb] at h; cases h
  | some b => exact ⟨b, rfl⟩

theorem flattenRows_length_ge (d : List (Nat × List RowVal)) :
    4 * d.length ≤
      ((d.map fun kv => u32le kv.1 ++ (kv.2.map RowVal.toBytes).flatten).flatten).length := by
  induction d with
  | nil => simp
  | cons a rest ih =>
      rw [List.map_cons, List.flatten_cons, List.length_append, List.length_cons]
      have h4 : (u32le a.1 ++ (a.2.map RowVal.toBytes).flatten).length =
          4 + ((a.2.map RowVal.toBytes).flatten).length := by
        rw [List.length_append]
        rfl
      omega

theorem Page.toBytes_length_ge (p : Page) :
    12 + 4 * p.data.length ≤ p.toBytes.length := by
  unfold Page.toBytes
  rw [List.length_append]
  have h12 : p.header.toBytes.length = 12 := rfl
  have := flattenRows_length_ge p.data
  omega

theorem Page.toPageBytes_le {p : Page} {b : List Nat} (h : p.toPageBytes = some b) :
    p.toBytes.length ≤ PAGE_SIZE := by
  simp only [Page.toPageBytes] at h
  split at h
  · cases h
  · omega

theorem count_lt_of_toPageBytes {p : Page} {b : List Nat}
    (h : p.toPageBytes = some b) : p.data.length < u32MAX := by
  have h1 := Page.toPageBytes_le h
  have h2 := Page.toBytes_length_ge p
  unfold PAGE_SIZE at h1
  unfold u32MAX
  omega

theorem inRange_of_cover {p : Page} {id : Nat}
    (hs1 : 1 ≤ p.header.startId) (hc1 : p.header.startId ≤ id)
    (hc2 : id ≤ p.header.endId) (he : p.header.endId ≤ u32MAX)
    (hn1 : 1 ≤ p.header.count) (hn2 : p.header.count < u32MAX) :
    inRange p id = true := by
  have hA : pageCmp p (rangeLo id) = Ordering.gt := by
    have hh : headerCmp p.header (rangeLo id).header = Ordering.gt := by
      unfold headerCmp
      rcases Nat.lt_or_ge id p.header.endId with h | h
      · rw [show natCmp p.header.endId (rangeLo id).header.endId = Ordering.gt from
          natCmp_gt h, ordAnd_gt]
      · have heq : p.header.endId = id := by omega
        rw [show natCmp p.header.endId (rangeLo id).header.endId = Ordering.eq from
          heq ▸ natCmp_self id, ordAnd_eq]
        rcases Nat.lt_or_ge 1 p.header.startId with h2 | h2
        · rw [show natCmp p.header.startId (rangeLo id).header.startId = Ordering.gt from
            natCmp_gt h2, ordAnd_gt]
        · have heq2 : p.header.startId = 1 := by omega
          rw [show natCmp p.header.startId (rangeLo id).header.startId = Ordering.eq from
            heq2 ▸ natCmp_self 1, ordAnd_eq]
          exact natCmp_gt (show 0 < p.header.count by omega)
    unfold pageCmp
    rw [hh, ordAnd_gt]
  have hB : pageCmp p (rangeHi id) = Ordering.lt := by
    have hh : headerCmp p.header (rangeHi id).header = Ordering.lt := by
      unfold headerCmp
      rcases Nat.lt_or_ge p.header.endId u32MAX with h | h
      · rw [show natCmp p.header.endId (rangeHi id).header.endId = Ordering.lt from
          natCmp_lt h, ordAnd_lt]
      · have heq : p.header.endId = u32MAX := by omega
        rw [show natCmp p.header.endId (rangeHi id).header.endId = Ordering.eq from
          heq ▸ natCmp_self u32MAX, ordAnd_eq]
        rcases Nat.lt_or_ge p.header.startId id with h2 | h2
        · rw [show natCmp p.header.startId (rangeHi id).header.startId = Ordering.lt from
            natCmp_lt h2, ordAnd_lt]
        · have heq2 : p.header.startId = id := by omega
          rw [show natCmp p.header.startId (rangeHi id).header.startId = Ordering.eq from
            heq2 ▸ natCmp_self id, ordAnd_eq]
          exact natCmp_lt hn2
    unfold pageCmp
    rw [hh, ordAnd_lt]
  simp only [inRange, hA, hB]
  rfl

theorem DB.sync_eq {db db2 : DB} (h : db.sync = some db2) :
    ∃ d2, List.foldlM (fun (x : DB) kv => x.insertToPage kv.1 kv.2) db
        db.walRecords = some d2 ∧
      ∃ file, d2.serialize = some file ∧
        db2 = { d2 with dataFile := file, walRecords := [], walFile := [] } := by
  unfold DB.sync at h
  rw [Option.bind_eq_some] at h
  obtain ⟨d2, h1, h2⟩ := h
  rw [Option.map_eq_some'] at h2
  obtain ⟨file, h3, h4⟩ := h2
  exact ⟨d2, h1, file, h3, h4.symm⟩

theorem get_after_sync {db db2 : DB} {id : Nat} {tail : List RowVal}
    (hwf : DBWf db) (hmem : (id, tail) ∈ db.walRecords)
    (h : db.sync = some db2) : db2.get id = some tail := by
  obtain ⟨hg, hwal⟩ := hwf
  obtain ⟨hws, hwb⟩ := hwal
  obtain ⟨d2, hfold, file, hser, hdb2⟩ := DB.sync_eq h
  have hentry : ∀ kv ∈ db.walRecords, entryOk kv := fun kv hkv => hwb kv hkv
  have htrack := foldWal_tracks db.walRecords db d2 id tail hg hentry hws hmem hfold
  have hgood := (foldWal_good db.walRecords db d2 hg hentry hfold).1
  subst hdb2
  show DB.get { d2 with dataFile := file, walRecords := [], walFile := [] } id =
    some tail
  unfold DB.get
  rw [show mapLookup id ([] : List (Nat × List RowVal)) = none from rfl]
  match hp : d2.pages with
  | [] => rw [hp] at htrack; cases htrack
  | [p] =>
      rw [hp] at htrack hgood
      obtain ⟨hpwf, hpsz, hpdirty⟩ := hgood
      obtain ⟨hne, hsd, hbd, hstart, hend, hcount⟩ := hpwf
      have hlook : mapLookup id p.data = some tail := htrack
      have hmem2 : (id, tail) ∈ p.data := mapLookup_mem hlook
      have hcov1 : p.header.startId ≤ id := by
        have := headKeyD_le_of_mem hsd hmem2
        omega
      have hcov2 : id ≤ p.header.endId := by
        have := le_lastKeyD_of_mem hsd hmem2
        omega
      have hs1 : 1 ≤ p.header.startId := by
        obtain ⟨w, hw⟩ := headKeyD_mem hne
        have := hbd _ hw
        omega
      have he : p.header.endId ≤ u32MAX := by
        obtain ⟨w, hw⟩ := lastKeyD_mem hne
        have := hbd _ hw
        omega
      have hn1 : 1 ≤ p.header.count := by
        rw [hcount]
        have : p.data.length ≠ 0 := fun hz => hne (List.length_eq_zero.1 hz)
        omega
      have hn2 : p.header.count < u32MAX := by
        cases hdy : p.dirty with
        | true =>
            obtain ⟨block, hb⟩ := serialize_single_dirty hp hdy hser
            have := count_lt_of_toPageBytes hb
            omega
        | false =>
            have h2c : ¬ (2 ≤ p.header.count) := fun habs => by
              rw [hpdirty habs] at hdy
              cases hdy
            unfold u32MAX
            omega
      have hinr := inRange_of_cover hs1 hcov1 hcov2 he hn1 hn2
      have hrm : rangeMax [p] id = some p := by
        simp [rangeMax, List.filter, hinr]
      show (match rangeMax [p] id with
        | some q => q.get id
        | none => none) = some tail
      rw [hrm]
      exact hlook
  | p :: q :: rest => rw [hp] at hgood; exact absurd hgood (by simp [GoodPages])

theorem DB.insert_wf {db : DB} (hwf : DBWf db) {id : Nat} {tail : List RowVal}
    (h1 : 1 ≤ id) (h2 : id ≤ u32MAX)
    (h3 : cellsSize (RowVal.id id :: tail) ≤ PAGE_SIZE) :
    DBWf (db.insert id tail) := by
  obtain ⟨hg, hws, hwb⟩ := hwf
  refine ⟨hg, mapInsert_sorted hws, ?_⟩
  intro kv hkv
  rcases mapInsert_mem hkv with h | h
  · subst h; exact ⟨h1, h2, h3⟩
  · exact hwb kv h

theorem DB.sync_wf {db db2 : DB} (hwf : DBWf db) (h : db.sync = some db2) :
    DBWf db2 := by
  obtain ⟨hg, hws, hwb⟩ := hwf
  obtain ⟨d2, hfold, file, hser, hdb2⟩ := DB.sync_eq h
  have hgood := (foldWal_good db.walRecords db d2 hg (fun kv hkv => hwb kv hkv) hfold).1
  subst hdb2
  exact ⟨hgood, List.Pairwise.nil, by simp⟩

theorem run_wf : ∀ (ops : List DBOp) (db db2 : DB), DBWf db →
    (∀ op ∈ ops, OpWf op) → run db ops = some db2 → DBWf db2
  | [], db, db2, hwf, _, h => by
      simp only [run, List.foldlM_nil] at h
      cases h
      exact hwf
  | op :: rest, db, db2, hwf, hops, h => by
      rw [show run db (op :: rest) =
        (applyOp db op).bind (fun d1 => run d1 rest) from rfl] at h
      rw [Option.bind_eq_some] at h
      obtain ⟨d1, h1, h2⟩ := h
      have hop := hops op (List.mem_cons_self _ _)
      have hwf1 : DBWf d1 := by
        cases op with
        | ins id tail =>
            simp only [applyOp, Option.some.injEq] at h1
            subst h1
            exact DB.insert_wf hwf hop.1 hop.2.1 hop.2.2
        | doSync => exact DB.sync_wf hwf h1
      exact run_wf rest d1 db2 hwf1 (fun o ho => hops o (List.mem_cons_of_mem _ ho)) h2

theorem foldWal_frame : ∀ (entries : List (Nat × List RowVal)) (d d2 : DB),
    List.foldlM (fun (x : DB) kv => x.insertToPage kv.1 kv.2) d entries = some d2 →
    d2.dataFile = d.dataFile ∧ d2.walRecords = d.walRecords ∧
      d2.walFile = d.walFile ∧ d2.schema = d.schema
  | [], d, d2, h => by
      simp only [List.foldlM_nil] at h
      cases h
      exact ⟨rfl, rfl, rfl, rfl⟩
  | kv :: rest, d, d2, h => by
      rw [foldlM_insertToPage_cons] at h
      cases h1 : d.insertToPage kv.1 kv.2 with
      | none => rw [h1] at h; cases h
      | some d1 =>
          rw [h1] at h
          simp only [Option.some_bind] at h
          obtain ⟨hdf, hwr, hwf2, hsch, _⟩ := DB.insertToPage_frame h1
          obtain ⟨ihdf, ihwr, ihwf, ihsch⟩ := foldWal_frame rest d1 d2 h
          exact ⟨ihdf.trans hdf, ihwr.trans hwr, ihwf.trans hwf2, ihsch.trans hsch⟩

theorem getLast_mem_list {α : Type} : ∀ {l : List α} {a : α},
    l.getLast? = some a → a ∈ l
  | [], a, h => by simp at h
  | [x], a, h => by
      rw [List.getLast?_singleton] at h
      injection h with h
      subst h
      exact List.mem_singleton_self x
  | x :: y :: ys, a, h => by
      rw [List.getLast?_cons_cons] at h
      exact List.mem_cons_of_mem x (getLast_mem_list h)

theorem getLast_filter_of_getLast {α : Type} (p : α → Bool) :
    ∀ (l : List α) (a : α), l.getLast? = some a → p a = true →
      (l.filter p).getLast? = some a
  | [], a, h, _ => by simp at h
  | [x], a, h, hp => by
      rw [List.getLast?_singleton] at h
      injection h with h
      subst h
      simp [List.filter_cons, hp]
  | x :: y :: ys, a, h, hp => by
      rw [List.getLast?_cons_cons] at h
      have ih := getLast_filter_of_getLast p (y :: ys) a h hp
      rw [List.filter_cons]
      by_cases hx : p x = true
      · rw [if_pos hx]
        have hne : (y :: ys).filter p ≠ [] := by
          intro hc
          rw [hc] at ih
          simp at ih
        match hflt : (y :: ys).filter p, hne with
        | z :: zs, _ =>
            rw [hflt] at ih
            rw [List.getLast?_cons_cons]
            exact ih
      · rw [if_neg hx]
        exact ih

theorem leVal_u32le {n : Nat} (h : n < 4294967296) :
    leVal (n % 256) (n / 256 % 256) (n / 65536 % 256) (n / 16777216 % 256) = n := by
  unfold leVal
  omega

theorem rowEnc_cons (c : RowVal) (cs : List RowVal) :
    rowEnc (c :: cs) = c.toBytes ++ rowEnc cs := rfl

theorem readCell_toBytes {t : RowType} {c : RowVal} (h : cellOk t c)
    (extra : List Nat) :
    readCell t (c.toBytes ++ extra) = some (c, c.toBytes.length) := by
  cases t <;> cases c <;> simp only [cellOk] at h
  case id.id n =>
    obtain ⟨h1, h2⟩ := h
    have hlt : n < 4294967296 := by unfold u32MAX at h2; omega
    simp only [RowVal.toBytes, u32le, List.cons_append, List.nil_append,
      readCell, leVal_u32le hlt]
    rw [if_neg (by omega)]
    simp
  case u32.u32 n =>
    simp only [RowVal.toBytes, u32le, List.cons_append, List.nil_append,
      readCell, leVal_u32le h]
    simp
  case bytes.bytes b =>
    have hb : b.length % 65536 = b.length := Nat.mod_eq_of_lt h
    simp only [RowVal.toBytes, u16le, hb, List.cons_append, List.append_assoc,
      List.nil_append, readCell]
    have hlen : b.length % 256 + 256 * (b.length / 256 % 256) = b.length := by
      omega
    rw [hlen, List.length_append]
    rw [if_neg (by omega)]
    rw [List.take_left]
    rw [show (b.length % 256 :: b.length / 256 % 256 :: b).length = 2 + b.length
      from by simp [List.length_cons]; omega]
  case bool.bool b =>
    cases b <;> simp [RowVal.toBytes, readCell]

theorem bytesToValues_rowEnc {schema : List RowType} {row : List RowVal}
    (h : rowOk schema row) : ∀ extra,
    bytesToValues (rowEnc row ++ extra) schema = some (row, (rowEnc row).length) := by
  induction h with
  | nil =>
      intro extra
      simp [rowEnc, bytesToValues]
  | cons hc htl ih =>
      intro extra
      rename_i t c ts cs
      rw [rowEnc_cons, List.append_assoc]
      simp only [bytesToValues]
      rw [readCell_toBytes hc (rowEnc cs ++ extra)]
      simp only [Option.some_bind]
      rw [List.drop_left, ih extra]
      simp only [Option.map_some']
      rw [List.length_append]

theorem readRows_encoded : ∀ (rows : List (List RowVal)) {schema : List RowType}
    {n : Nat}, n = rows.length → (∀ r ∈ rows, rowOk schema r) → ∀ extra,
    readRows schema n ((rows.map rowEnc).flatten ++ extra) = some rows
  | [], _, _, hn, _, extra => by
      subst hn
      simp [readRows]
  | r :: rest, schema, n, hn, h, extra => by
      subst hn
      rw [List.map_cons, List.flatten_cons, List.append_assoc]
      simp only [List.length_cons, readRows]
      rw [bytesToValues_rowEnc (h r (List.mem_cons_self r rest))
        ((rest.map rowEnc).flatten ++ extra)]
      simp only [Option.some_bind]
      rw [List.drop_left]
      rw [readRows_encoded rest rfl
        (fun x hx => h x (List.mem_cons_of_mem r hx)) extra]
      simp

theorem mapInsert_append_of_lt {α : Type} {k : Nat} {v : α} :
    ∀ {l : List (Nat × α)}, (∀ kv ∈ l, kv.1 < k) → mapInsert k v l = l ++ [(k, v)]
  | [], _ => rfl
  | (k1, v1) :: rest, h => by
      have h1 : k1 < k := h (k1, v1) (List.mem_cons_self _ _)
      simp only [mapInsert]
      rw [if_neg (by omega), if_neg (by omega)]
      rw [mapInsert_append_of_lt (fun kv hkv => h kv (List.mem_cons_of_mem _ hkv))]
      simp

theorem foldlM_buildMap_cons (acc : List (Nat × List RowVal)) (r : List RowVal)
    (rest : List (List RowVal)) :
    List.foldlM (fun m r2 => (splitRow r2).map fun kv => mapInsert kv.1 kv.2 m)
        acc (r :: rest) =
      ((splitRow r).map fun kv => mapInsert kv.1 kv.2 acc).bind fun acc2 =>
        List.foldlM (fun m r2 => (splitRow r2).map fun kv => mapInsert kv.1 kv.2 m)
          acc2 rest := rfl

theorem buildMap_image : ∀ (M acc : List (Nat × List RowVal)),
    mapWf (acc ++ M) →
    List.foldlM (fun m r => (splitRow r).map fun kv => mapInsert kv.1 kv.2 m)
      acc (M.map rowOfEntry) = some (acc ++ M)
  | [], acc, _ => by simp [List.foldlM_nil]
  | kv :: M', acc, hwf => by
      rw [List.map_cons, foldlM_buildMap_cons]
      rw [show splitRow (rowOfEntry kv) = some (kv.1, kv.2) from rfl]
      rw [Option.map_some', Option.some_bind]
      have hkeys : ∀ a ∈ acc, a.1 < kv.1 := by
        intro a ha
        exact (List.pairwise_append.1 hwf).2.2 a ha kv (List.mem_cons_self _ _)
      rw [show mapInsert kv.1 kv.2 acc = acc ++ [(kv.1, kv.2)] from
        mapInsert_append_of_lt hkeys]
      rw [show ((kv.1, kv.2) : Nat × List RowVal) = kv from rfl]
      have hassoc : (acc ++ [kv]) ++ M' = acc ++ (kv :: M') := by simp
      rw [buildMap_image M' (acc ++ [kv]) (by rw [hassoc]; exact hwf)]
      rw [hassoc]

theorem splitRow_eq : ∀ {r : List RowVal} {ktl : Nat × List RowVal},
    splitRow r = some ktl → r = RowVal.id ktl.1 :: ktl.2
  | RowVal.id n :: rest, ktl, h => by
      simp only [splitRow] at h
      injection h with h
      rw [← h]
  | [], _, h => by simp [splitRow] at h
  | RowVal.u32 _ :: _, _, h => by simp [splitRow] at h
  | RowVal.bytes _ :: _, _, h => by simp [splitRow] at h
  | RowVal.bool _ :: _, _, h => by simp [splitRow] at h

theorem buildMap_go_sorted : ∀ (rows : List (List RowVal))
    (acc M : List (Nat × List RowVal)), mapWf acc →
    List.foldlM (fun m r => (splitRow r).map fun kv => mapInsert kv.1 kv.2 m)
      acc rows = some M → mapWf M
  | [], acc, M, hs, h => by
      simp only [List.foldlM_nil] at h
      cases h
      exact hs
  | r :: rest, acc, M, hs, h => by
      rw [foldlM_buildMap_cons] at h
      cases hsp : splitRow r with
      | none => rw [hsp] at h; simp at h
      | some ktl =>
          rw [hsp, Option.map_some', Option.some_bind] at h
          exact buildMap_go_sorted rest _ M (mapInsert_sorted hs) h

theorem buildMap_mem_origin : ∀ (rows : List (List RowVal))
    (acc M : List (Nat × List RowVal)),
    List.foldlM (fun m r => (splitRow r).map fun kv => mapInsert kv.1 kv.2 m)
      acc rows = some M →
    ∀ kv ∈ M, kv ∈ acc ∨ rowOfEntry kv ∈ rows
  | [], acc, M, h, kv, hkv => by
      simp only [List.foldlM_nil] at h
      cases h
      exact Or.inl hkv
  | r :: rest, acc, M, h, kv, hkv => by
      rw [foldlM_buildMap_cons] at h
      cases hsp : splitRow r with
      | none => rw [hsp] at h; simp at h
      | some ktl =>
          rw [hsp, Option.map_some', Option.some_bind] at h
          rcases buildMap_mem_origin rest _ M h kv hkv with h2 | h2
          · rcases mapInsert_mem h2 with h3 | h3
            · right
              rw [show rowOfEntry kv = r from by
                rw [h3, splitRow_eq hsp]; rfl]
              exact List.mem_cons_self _ _
            · exact Or.inl h3
          · exact Or.inr (List.mem_cons_of_mem _ h2)

theorem mapInsert_perm {α : Type} {k : Nat} {v : α} :
    ∀ {l : List (Nat × α)}, (∀ kv ∈ l, kv.1 ≠ k) →
      List.Perm (mapInsert k v l) ((k, v) :: l)
  | [], _ => List.Perm.refl _
  | (k1, v1) :: rest, h => by
      simp only [mapInsert]
      by_cases h1 : k < k1
      · rw [if_pos h1]
      · rw [if_neg h1]
        have hne : ¬ (k = k1) := by
          intro hc
          exact h (k1, v1) (List.mem_cons_self _ _) (by simp [hc])
        rw [if_neg hne]
        exact List.Perm.trans
          (List.Perm.cons _ (mapInsert_perm
            (fun kv hkv => h kv (List.mem_cons_of_mem _ hkv))))
          (List.Perm.swap _ _ _)

theorem mapInsert_keys_mem {α : Type} {k j : Nat} {v : α} {l : List (Nat × α)}
    (h : j ∈ (mapInsert k v l).map Prod.fst) : j = k ∨ j ∈ l.map Prod.fst := by
  obtain ⟨kv, hkv, hj⟩ := List.mem_map.1 h
  rcases mapInsert_mem hkv with h2 | h2
  · left
    rw [← hj, h2]
  · right
    exact List.mem_map.2 ⟨kv, h2, hj⟩

theorem buildMap_perm : ∀ (rows : List (List RowVal))
    (acc M : List (Nat × List RowVal)),
    (∀ r ∈ rows, ∃ k tl, r = RowVal.id k :: tl) →
    (∀ r ∈ rows, rowKey r ∉ acc.map Prod.fst) →
    (rows.map rowKey).Nodup →
    List.foldlM (fun m r => (splitRow r).map fun kv => mapInsert kv.1 kv.2 m)
      acc rows = some M →
    List.Perm (M.map rowOfEntry) (acc.map rowOfEntry ++ rows)
  | [], acc, M, _, _, _, h => by
      simp only [List.foldlM_nil] at h
      cases h
      rw [List.append_nil]
  | r :: rest, acc, M, hshape, hfresh, hnodup, h => by
      obtain ⟨k, tl, hr⟩ := hshape r (List.mem_cons_self _ _)
      subst hr
      rw [foldlM_buildMap_cons] at h
      rw [show splitRow (RowVal.id k :: tl) = some (k, tl) from rfl] at h
      rw [Option.map_some', Option.some_bind] at h
      have hkey : rowKey (RowVal.id k :: tl) = k := rfl
      have hkfresh : ∀ kv ∈ acc, kv.1 ≠ k := by
        intro kv hkv hc
        exact hfresh _ (List.mem_cons_self _ _)
          (by rw [hkey]; exact List.mem_map.2 ⟨kv, hkv, hc⟩)
      have hperm1 : List.Perm (mapInsert k tl acc) ((k, tl) :: acc) :=
        mapInsert_perm hkfresh
      have hfresh2 : ∀ r2 ∈ rest, rowKey r2 ∉ (mapInsert k tl acc).map Prod.fst := by
        intro r2 hr2 hmem
        rcases mapInsert_keys_mem hmem with h2 | h2
        · rw [List.map_cons, hkey] at hnodup
          exact (List.nodup_cons.1 hnodup).1
            (h2 ▸ List.mem_map.2 ⟨r2, hr2, rfl⟩)
        · exact hfresh r2 (List.mem_cons_of_mem _ hr2) h2
      have hnodup2 : (rest.map rowKey).Nodup := by
        rw [List.map_cons] at hnodup
        exact (List.nodup_cons.1 hnodup).2
      have hshape2 : ∀ r2 ∈ rest, ∃ k2 tl2, r2 = RowVal.id k2 :: tl2 :=
        fun r2 hr2 => hshape r2 (List.mem_cons_of_mem _ hr2)
      have ih := buildMap_perm rest (mapInsert k tl acc) M hshape2 hfresh2 hnodup2 h
      refine ih.trans ?_
      refine ((hperm1.map rowOfEntry).append_right rest).trans ?_
      rw [show ((k, tl) :: acc).map rowOfEntry ++ rest =
        rowOfEntry (k, tl) :: (acc.map rowOfEntry ++ rest) from by simp]
      exact List.perm_middle.symm

theorem sizeOfRows_perm {l1 l2 : List (List RowVal)} (h : List.Perm l1 l2) :
    sizeOfRows l1 = sizeOfRows l2 := by
  unfold sizeOfRows
  rw [List.Perm.sum_eq (h.map _)]

/-! ## Claim theorems -/

/-- C5 (code bug): the claim that `deserialize_wal` decodes the concatenated
encodings of every valid record sequence back to the same sequence fails:
for two consecutive Inserts the decoder advances by `incr + 4`
(double-counting the id bytes) and returns only the first record. -/
theorem c5_decode_drops_record :
    deserializeWal (walEncode c5Records) schemaIdU32 =
      some [WALRecord.insert 1 [RowVal.u32 7]] ∧
    some c5Records ≠ deserializeWal (walEncode c5Records) schemaIdU32 := by
  decide

/-- C8 (code bug): a 5-byte truncated Delete record at the tail
(`[0,0,0,0,1]`, a strict prefix of `Delete(1)`'s 8-byte encoding, after zero
complete records) makes `deserialize_wal` read `bytes[4..8]` out of range
and panic instead of stopping cleanly with the empty record list. -/
theorem c8_truncated_tail_panics :
    deserializeWal (walEncode [] ++ ((WALRecord.delete 1).toBytes.take 5))
      schemaIdU32 = none ∧
    ((WALRecord.delete 1).toBytes.take 5).length <
      (WALRecord.delete 1).toBytes.length := by
  decide

/-- C6 (counterexample): `DB::remove` does append a Delete record to the WAL
file — removing id 1 from a fresh database grows the WAL file from empty by
exactly the Delete record's encoding. -/
theorem c6_counterexample_remove_appends_delete :
    (DB.remove (emptyDB schemaIdU32) 1).map (fun r => r.2.walFile) =
      some ((WALRecord.delete 1).toBytes) ∧
    (WALRecord.delete 1).toBytes ≠ ([] : List Nat) := by
  decide

/-- C6 (amended): every `DB::remove` that returns appends exactly one Delete
record for the id to the WAL file (via `WAL::remove`, which runs
unconditionally before the page path). -/
theorem c6_amended_remove_always_appends_delete (db : DB) (id : Nat)
    (r : Option (List RowVal)) (db2 : DB) (h : db.remove id = some (r, db2)) :
    db2.walFile = db.walFile ++ (WALRecord.delete id).toBytes := by
  simp only [DB.remove] at h
  split at h
  · simp only [Option.some.injEq, Prod.mk.injEq] at h
    obtain ⟨h1, h2⟩ := h
    subst h2
    rfl
  · split at h
    · simp only [Option.some.injEq, Prod.mk.injEq] at h
      obtain ⟨h1, h2⟩ := h
      subst h2
      rfl
    · split at h
      · simp only [Option.some.injEq, Prod.mk.injEq] at h
        obtain ⟨h1, h2⟩ := h
        subst h2
        rfl
      · split at h
        · simp only [Option.some.injEq, Prod.mk.injEq] at h
          obtain ⟨h1, h2⟩ := h
          subst h2
          rfl
        · split at h
          · simp only [Option.some.injEq, Prod.mk.injEq] at h
            obtain ⟨h1, h2⟩ := h
            subst h2
            rfl
          · split at h
            · exact absurd h (by simp)
            · split at h
              · simp only [Option.some.injEq, Prod.mk.injEq] at h
                obtain ⟨h1, h2⟩ := h
                subst h2
                rfl
              · simp only [Option.some.injEq, Prod.mk.injEq] at h
                obtain ⟨h1, h2⟩ := h
                subst h2
                rfl

/-- C6 (witness): the amended theorem applied to the fresh database. -/
theorem c6_amended_witness :
    c6resDB.walFile = (emptyDB schemaIdU32).walFile ++ (WALRecord.delete 1).toBytes :=
  c6_amended_remove_always_appends_delete (emptyDB schemaIdU32) 1 none c6resDB rfl

/-- C7 (counterexample): syncing a database whose only page is clean leaves
the oversized data file byte-for-byte unchanged — the stale second block is
not truncated away (the claim demands truncation to `n * PAGE_SIZE = 4096`),
and the clean page is never rewritten. -/
theorem c7_counterexample_no_truncation :
    (DB.sync db7).map (fun d => d.dataFile) = some (List.replicate 8192 7) ∧
    db7.pages.length * PAGE_SIZE = 4096 ∧ (8192 : Nat) ≠ 4096 := by
  refine ⟨rfl, rfl, by decide⟩

/-- C7 (amended): `DB::sync` clears the WAL map, truncates the WAL file,
writes only dirty pages (so the data file never shrinks), and when the WAL
is empty and every page is clean it leaves the data file unchanged. -/
theorem c7_amended_sync_writes_dirty_only (db db2 : DB) (h : db.sync = some db2) :
    db2.walRecords = [] ∧ db2.walFile = [] ∧
    db.dataFile.length ≤ db2.dataFile.length ∧
    (db.walRecords = [] → (∀ p ∈ db.pages, p.dirty = false) →
      db2.dataFile = db.dataFile) := by
  obtain ⟨d2, hfold, file, hser, hdb2⟩ := DB.sync_eq h
  subst hdb2
  obtain ⟨hdf, hwr, hwf2, hsch⟩ := foldWal_frame _ _ _ hfold
  unfold DB.serialize at hser
  refine ⟨rfl, rfl, ?_, ?_⟩
  · have hmono := serializeGo_mono d2.pages d2.dataFile 0 file hser
    show db.dataFile.length ≤ file.length
    rw [← hdf]
    exact hmono
  · intro hwrnil hclean
    show file = db.dataFile
    rw [hwrnil] at hfold
    simp only [List.foldlM_nil] at hfold
    cases hfold
    rw [serializeGo_clean db.pages db.dataFile 0 hclean] at hser
    simp only [Option.some.injEq] at hser
    exact hser.symm

/-- C7 (witness): the amended theorem at the concrete clean database. -/
theorem c7_amended_witness :
    db7.walRecords = [] ∧ db7.walFile = [] ∧
      db7.dataFile.length ≤ db7.dataFile.length ∧ db7.dataFile = db7.dataFile :=
  have hmain := c7_amended_sync_writes_dirty_only db7 db7 rfl
  ⟨hmain.1, hmain.2.1, hmain.2.2.1, hmain.2.2.2 rfl (by decide)⟩

/-- C10: `Page::insert` and `Page::remove` leave the `size` field unchanged:
it keeps the byte count computed at construction time. -/
theorem c10_size_frame (p p2 : Page) (row : List RowVal) (id : Nat) :
    (p.insert row = some p2 → p2.size = p.size) ∧
    ((p.remove id).2.size = p.size) := by
  constructor
  · intro h
    unfold Page.insert at h
    cases hs : splitRow row with
    | none => rw [hs] at h; cases h
    | some kv =>
        rw [hs] at h
        simp only [Option.map_some', Option.some.injEq] at h
        subst h
        rfl
  · cases hl : mapLookup id p.data with
    | none => unfold Page.remove; rw [hl]
    | some v => unfold Page.remove; rw [hl]

/-- C10 (witness): the frame property at a concrete page, row and id. -/
theorem c10_size_frame_witness :
    ((Page.insert c2page1 [RowVal.id 3, RowVal.u32 30]).getD c2page1).size =
      c2page1.size ∧
    ((Page.remove c2page1 1).2).size = c2page1.size :=
  ⟨(c10_size_frame c2page1
      ((Page.insert c2page1 [RowVal.id 3, RowVal.u32 30]).getD c2page1)
      [RowVal.id 3, RowVal.u32 30] 1).1 (by rfl),
   (c10_size_frame c2page1 c2page1 [RowVal.id 3, RowVal.u32 30] 1).2⟩

set_option maxRecDepth 20000 in
/-- C1 (counterexample): read-your-writes fails across a sync. After the
prior operations `insert 9 (oversized row); sync; insert 9 (small row)`, the
probed `insert 5; sync` completes without any panic, yet `get 5` returns
nothing: the sync-time fold placed id 5 in page `[5,5]` while the range
query of `get` reads the greatest page of the range, `[9,9]`. -/
theorem c1_counterexample_get_after_sync :
    (run (emptyDB schemaIdBytes) c1ops).map (fun db => db.get 5) = some none ∧
    (some t5Tail : Option (List RowVal)) ≠ none := by
  refine ⟨rfl, by decide⟩

/-- C1 (amended): read-your-writes holds unconditionally before a sync, and
holds across a sync provided every row inserted in the run (including the
probed one) has encoded size at most `PAGE_SIZE` — the index then never
holds more than one page, so the range query cannot miss. -/
theorem c1_amended_read_your_writes (schema : List RowType) (ops : List DBOp)
    (id : Nat) (tail : List RowVal) (db0 db1 : DB)
    (hops : ∀ op ∈ ops, OpWf op) (h1 : 1 ≤ id) (h2 : id ≤ u32MAX)
    (h3 : cellsSize (RowVal.id id :: tail) ≤ PAGE_SIZE)
    (hrun : run (emptyDB schema) ops = some db0)
    (hsync : (db0.insert id tail).sync = some db1) :
    DB.get (db0.insert id tail) id = some tail ∧ DB.get db1 id = some tail := by
  have hwf0 : DBWf db0 := run_wf ops (emptyDB schema) db0
    ⟨trivial, List.Pairwise.nil, fun kv hkv => absurd hkv (List.not_mem_nil kv)⟩
    hops hrun
  constructor
  · unfold DB.get
    have hl : mapLookup id (db0.insert id tail).walRecords = some tail :=
      mapLookup_mapInsert_self id tail db0.walRecords
    rw [hl]
  · have hwf1 : DBWf (db0.insert id tail) := DB.insert_wf hwf0 h1 h2 h3
    have hmem : (id, tail) ∈ (db0.insert id tail).walRecords :=
      mem_mapInsert_self id tail db0.walRecords
    exact get_after_sync hwf1 hmem hsync

set_option maxRecDepth 10000 in
/-- C1 (witness): the amended theorem at `insert 1 (U32 5); sync` from the
empty database. -/
theorem c1_amended_witness :
    DB.get ((emptyDB schemaIdU32).insert 1 [RowVal.u32 5]) 1 =
      some [RowVal.u32 5] ∧
    DB.get c1wDB 1 = some [RowVal.u32 5] :=
  c1_amended_read_your_writes schemaIdU32 [] 1 [RowVal.u32 5]
    (emptyDB schemaIdU32) c1wDB (by simp) (by decide) (by decide) (by decide)
    rfl (by decide)

set_option maxRecDepth 20000 in
/-- C3 (counterexample): after the reachable, panic-free sequence `c3ops`
the index holds pages `[1,1]`, `[5,5]` and `[4,9]` — the last two overlap,
refuting strict disjointness of page key ranges. -/
theorem c3_counterexample_overlapping_pages :
    (run (emptyDB schemaIdBytes) c3ops).map (fun db => pagesDisjointB db.pages) =
      some false ∧
    (run (emptyDB schemaIdBytes) c3ops).map
        (fun db => db.pages.map fun p => (p.header.startId, p.header.endId)) =
      some [(1, 1), (5, 5), (4, 9)] := by
  exact ⟨rfl, rfl⟩

/-- C3 (amended): when every inserted row fits in a page, the index never
holds more than one page after any sequence of inserts and syncs, so the
pairwise-disjointness check holds (vacuously for the single page). -/
theorem c3_amended_disjoint_when_rows_fit (schema : List RowType)
    (ops : List DBOp) (db : DB) (hops : ∀ op ∈ ops, OpWf op)
    (hrun : run (emptyDB schema) ops = some db) :
    pagesDisjointB db.pages = true := by
  have hwf : DBWf db := run_wf ops (emptyDB schema) db
    ⟨trivial, List.Pairwise.nil, fun kv hkv => absurd hkv (List.not_mem_nil kv)⟩
    hops hrun
  obtain ⟨hg, _⟩ := hwf
  match hps : db.pages with
  | [] => rfl
  | [p] => simp [pagesDisjointB]
  | p :: q :: rest =>
      rw [hps] at hg
      exact absurd hg (by simp [GoodPages])

set_option maxRecDepth 10000 in
/-- C3 (witness): the amended theorem at a run with one fitting insert. -/
theorem c3_amended_witness : pagesDisjointB c1wDB.pages = true :=
  c3_amended_disjoint_when_rows_fit schemaIdU32 c3wops c1wDB (by decide) (by decide)

set_option maxRecDepth 20000 in
/-- C4 (code bug): three inserts of 2004-byte rows followed by a sync reach
the fatal branch of `to_page_bytes`: the fold packs all three rows into one
page whose encoded size is 6024 > `PAGE_SIZE` (the stale `size` field stays
at the construction-time value, so the split policy never fires), and the
whole run aborts. -/
theorem c4_oversized_page_reaches_fatal_branch :
    run (emptyDB schemaIdU32) c4ops = none ∧
    (dbFoldWal c4dbPre).map (fun d => d.pages.map fun p => p.toBytes.length) =
      some [6024] ∧ PAGE_SIZE < 6024 := by
  have hfold : dbFoldWal c4dbPre = some c4Folded := by rfl
  have hlen : c4Page.toBytes.length = 6024 := by
    have hb : b2000Tail.map RowVal.toBytes =
        List.replicate 500 (RowVal.u32 0).toBytes := by
      rw [show b2000Tail = List.replicate 500 (RowVal.u32 0) from rfl,
        List.map_replicate]
    have hrow : ((b2000Tail.map RowVal.toBytes).flatten).length = 2000 := by
      rw [hb, List.length_flatten, List.map_replicate,
        show (RowVal.u32 0).toBytes.length = 4 from rfl, List.sum_replicate,
        smul_eq_mul]
    have hd : c4Page.data = [(1, b2000Tail), (2, b2000Tail), (3, b2000Tail)] :=
      rfl
    have hh : (PageHeader.toBytes c4Page.header).length = 12 := rfl
    simp only [Page.toBytes, hd, List.map_cons, List.map_nil,
      List.flatten_cons, List.flatten_nil, List.length_append, hh, hrow,
      List.length_nil, show (u32le 1).length = 4 from rfl,
      show (u32le 2).length = 4 from rfl, show (u32le 3).length = 4 from rfl]
  have hpb : c4Page.toPageBytes = none := by
    simp only [Page.toPageBytes, hlen]
    simp [PAGE_SIZE]
  have hser : c4Folded.serialize = none := by
    show serializeGo c4Folded.dataFile 0 [c4Page] = none
    have hd : c4Page.dirty = true := rfl
    simp [serializeGo, hd, hpb]
  have hsync : DB.sync c4dbPre = none := by
    unfold DB.sync
    rw [show (c4dbPre.walRecords.foldlM
        (fun (d : DB) kv => d.insertToPage kv.1 kv.2) c4dbPre) = some c4Folded
      from hfold]
    rw [Option.some_bind, hser]
    rfl
  refine ⟨?_, ?_, by decide⟩
  · show List.foldlM applyOp (emptyDB schemaIdU32) c4ops = none
    simp only [c4ops, List.foldlM_cons, List.foldlM_nil, applyOp,
      Option.bind_eq_bind, Option.some_bind, bind_pure]
    rw [show (((emptyDB schemaIdU32).insert 1 b2000Tail).insert 2
        b2000Tail).insert 3 b2000Tail = c4dbPre from rfl]
    exact hsync
  · rw [hfold]
    show (some ([c4Page].map fun p => p.toBytes.length)) = some [6024]
    rw [show [c4Page].map (fun p => p.toBytes.length) = [c4Page.toBytes.length]
      from rfl, hlen]

/-- C2 (counterexample): in the three-page index of `c2db` — sorted,
pairwise disjoint, with consistent pages and an empty WAL — page `[4,5]`
covers id 4 and holds a row for it, yet `get 4` returns nothing: the range
query selects the greatest in-range page `[7,9]`, not the covering one. -/
theorem c2_counterexample_get_misses_covering_page :
    (List.Pairwise (fun a b => pageCmp a b = Ordering.lt) c2db.pages ∧
      (∀ p ∈ c2db.pages, PageWf p) ∧ pagesDisjointB c2db.pages = true ∧
      mapLookup 4 c2db.walRecords = none) ∧
    c2page2 ∈ c2db.pages ∧ c2page2.header.startId ≤ 4 ∧
    4 ≤ c2page2.header.endId ∧ c2page2.get 4 = some [RowVal.u32 40] ∧
    rangeMax c2db.pages 4 = some c2page3 ∧ DB.get c2db 4 = none := by
  decide

/-- C2 (amended): with the id absent from the WAL map, if a consistent page
covers the id (start ≤ id ≤ end, count below `u32::MAX`) and that page is
the LAST page of the index, then `get` returns the covering page's lookup:
the range query selects the last in-range page, which is the covering one
exactly when no later page exists. -/
theorem c2_amended_get_covering_last_page (db : DB) (C : Page) (id : Nat)
    (hw : mapLookup id db.walRecords = none)
    (hwfp : ∀ p ∈ db.pages, PageWf p)
    (hlast : db.pages.getLast? = some C)
    (hc1 : C.header.startId ≤ id) (hc2 : id ≤ C.header.endId)
    (hcnt : C.header.count < u32MAX) :
    DB.get db id = C.get id := by
  have hCmem : C ∈ db.pages := getLast_mem_list hlast
  obtain ⟨hne, hsort, hbnd, hstart, hend, hcount⟩ := hwfp C hCmem
  have hs1 : 1 ≤ C.header.startId := by
    obtain ⟨w, hm⟩ := headKeyD_mem hne
    have hb := hbnd _ hm
    rw [hstart]
    exact hb.1
  have he1 : C.header.endId ≤ u32MAX := by
    obtain ⟨w, hm⟩ := lastKeyD_mem hne
    have hb := hbnd _ hm
    rw [hend]
    exact hb.2
  have hn1 : 1 ≤ C.header.count := by
    rw [hcount]
    exact List.length_pos.2 hne
  have hin : inRange C id = true := inRange_of_cover hs1 hc1 hc2 he1 hn1 hcnt
  have hrm : rangeMax db.pages id = some C :=
    getLast_filter_of_getLast _ db.pages C hlast hin
  obtain ⟨x, xs, hps⟩ : ∃ x xs, db.pages = x :: xs := by
    cases hps : db.pages with
    | nil => rw [hps] at hlast; simp at hlast
    | cons x xs => exact ⟨x, xs, rfl⟩
  unfold DB.get
  rw [hw, hps]
  show (match rangeMax (x :: xs) id with
        | some p => p.get id
        | none => none) = C.get id
  rw [hps] at hrm
  rw [hrm]

/-- C2 (witness): the amended theorem at the two-page index `c2wdb`, whose
covering page `[4,5]` for id 4 is the last page. -/
theorem c2_amended_witness :
    (mapLookup 4 c2wdb.walRecords = none ∧ (∀ p ∈ c2wdb.pages, PageWf p) ∧
      c2wdb.pages.getLast? = some c2page2 ∧ c2page2.header.startId ≤ 4 ∧
      4 ≤ c2page2.header.endId ∧ c2page2.header.count < u32MAX) ∧
    DB.get c2wdb 4 = c2page2.get 4 :=
  ⟨⟨by decide, by decide, by decide, by decide, by decide, by decide⟩,
   c2_amended_get_covering_last_page c2wdb c2page2 4 (by decide) (by decide)
     (by decide) (by decide) (by decide) (by decide)⟩

/-- C9 (counterexample): on the duplicate-id row list `c9rows` the page
codec's round trip changes the page even ignoring `dirty`: `Page::new` sums
the `size` field over both input rows (16) while the decoded page, rebuilt
by `Page::new` from the single stored row, gets size 8 — header and data
survive the trip, the `size` field does not. -/
theorem c9_counterexample_duplicate_ids :
    (Page.new c9rows schemaIdU32).map Page.size = some 16 ∧
    ((Page.new c9rows schemaIdU32).bind fun P =>
      pageRoundTrip P schemaIdU32).map Page.size = some 8 ∧
    ((Page.new c9rows schemaIdU32).bind fun P =>
      (pageRoundTrip P schemaIdU32).map fun Q =>
        (Q.header == P.header, Q.data == P.data, Q.dirty == P.dirty,
          Q.size == P.size)) = some (true, true, true, false) := by
  decide

/-- C9 (amended): the round trip of the page codec is the identity for every
page built by `Page::new` from schema-conforming rows with DISTINCT
(non-zero u32) ids whose encoding fits in `PAGE_SIZE`; with duplicate ids
the `size` field is double-counted and the round trip shrinks it. -/
theorem c9_amended_roundtrip_distinct_ids (srest : List RowType)
    (rows : List (List RowVal)) (P : Page)
    (hrows : ∀ r ∈ rows, rowOk (RowType.id :: srest) r)
    (hdist : (rows.map rowKey).Nodup)
    (hnew : Page.new rows (RowType.id :: srest) = some P)
    (hfit : P.toBytes.length ≤ PAGE_SIZE) :
    pageRoundTrip P (RowType.id :: srest) = some P := by
  unfold Page.new at hnew
  obtain ⟨M, hM⟩ : ∃ M, buildMap rows = some M := by
    cases hMq : buildMap rows with
    | none => rw [hMq] at hnew; simp at hnew
    | some M => exact ⟨M, rfl⟩
  rw [hM, Option.map_some'] at hnew
  injection hnew with hP
  have hhdr : P.header = PageHeader.mk (lastKeyD M) (headKeyD M) M.length := by
    rw [← hP]
  have hdata : P.data = M := by rw [← hP]
  have hM2 : List.foldlM
      (fun m r => (splitRow r).map fun kv => mapInsert kv.1 kv.2 m) [] rows =
      some M := hM
  have hsortM : mapWf M := buildMap_go_sorted rows [] M List.Pairwise.nil hM2
  have horigin := buildMap_mem_origin rows [] M hM2
  have hboundM : ∀ kv ∈ M, 1 ≤ kv.1 ∧ kv.1 ≤ u32MAX := by
    intro kv hkv
    rcases horigin kv hkv with h2 | h2
    · exact absurd h2 (List.not_mem_nil kv)
    · have h3 : List.Forall₂ cellOk (RowType.id :: srest) (rowOfEntry kv) :=
        hrows _ h2
      cases h3 with
      | cons ha hb => exact ha
  have hdecOk : ∀ r ∈ M.map rowOfEntry, rowOk (RowType.id :: srest) r := by
    intro r hr
    obtain ⟨kv, hkv, hrr⟩ := List.mem_map.1 hr
    rcases horigin kv hkv with h2 | h2
    · exact absurd h2 (List.not_mem_nil kv)
    · rw [← hrr]
      exact hrows _ h2
  have hendB : 1 ≤ lastKeyD M ∧ lastKeyD M ≤ u32MAX := by
    by_cases hMe : M = []
    · subst hMe
      exact ⟨by decide, by decide⟩
    · obtain ⟨w, hw⟩ := lastKeyD_mem hMe
      exact hboundM _ hw
  have hstartB : 1 ≤ headKeyD M ∧ headKeyD M ≤ u32MAX := by
    by_cases hMe : M = []
    · subst hMe
      exact ⟨by decide, by decide⟩
    · obtain ⟨w, hw⟩ := headKeyD_mem hMe
      exact hboundM _ hw
  have hpb : P.toPageBytes =
      some (P.toBytes ++ List.replicate (PAGE_SIZE - P.toBytes.length) 0) := by
    simp only [Page.toPageBytes]
    rw [if_neg (by omega)]
  have hcnt : M.length < u32MAX := by
    have h2 := count_lt_of_toPageBytes hpb
    rw [hdata] at h2
    exact h2
  have he32 : lastKeyD M < 4294967296 := by
    have h2 := hendB.2
    unfold u32MAX at h2
    omega
  have hs32 : headKeyD M < 4294967296 := by
    have h2 := hstartB.2
    unfold u32MAX at h2
    omega
  have hc32 : M.length < 4294967296 := by
    unfold u32MAX at hcnt
    omega
  unfold pageRoundTrip
  rw [hpb, Option.some_bind]
  have htb : P.toBytes =
      PageHeader.toBytes (PageHeader.mk (lastKeyD M) (headKeyD M) M.length) ++
      (M.map fun kv => u32le kv.1 ++ (kv.2.map RowVal.toBytes).flatten).flatten := by
    unfold Page.toBytes
    rw [hhdr, hdata]
  rw [htb]
  rw [show (M.map fun kv => u32le kv.1 ++ (kv.2.map RowVal.toBytes).flatten).flatten
      = ((M.map rowOfEntry).map rowEnc).flatten from by rw [List.map_map]; rfl]
  simp only [PageHeader.toBytes, u32le, List.cons_append, List.nil_append,
    List.append_assoc]
  simp only [Page.fromBytes]
  rw [leVal_u32le he32, leVal_u32le hs32, leVal_u32le hc32]
  rw [if_neg (by omega), if_neg (by omega)]
  rw [readRows_encoded (M.map rowOfEntry) (by rw [List.length_map]) hdecOk]
  rw [Option.some_bind]
  unfold Page.new
  rw [show buildMap (M.map rowOfEntry) = some M from by
    have h2 := buildMap_image M [] (by simpa using hsortM)
    rw [List.nil_append] at h2
    exact h2]
  rw [Option.map_some']
  have hperm : List.Perm (M.map rowOfEntry) rows := by
    have hshape : ∀ r ∈ rows, ∃ k tl, r = RowVal.id k :: tl := by
      intro r hr
      have h3 : List.Forall₂ cellOk (RowType.id :: srest) r := hrows r hr
      cases h3 with
      | cons ha hb =>
          rename_i c cs
          cases c with
          | id n => exact ⟨n, cs, rfl⟩
          | u32 n => exact absurd ha (by simp [cellOk])
          | bytes b2 => exact absurd ha (by simp [cellOk])
          | bool b2 => exact absurd ha (by simp [cellOk])
    have h2 := buildMap_perm rows [] M hshape (by simp) hdist hM2
    simpa using h2
  have hsz : sizeOfRows (M.map rowOfEntry) = sizeOfRows rows :=
    sizeOfRows_perm hperm
  rw [hsz, ← hP]

/-- C9 (witness): the amended round trip at the two distinct-id rows
`c9wrows` and their page `c9wP`. -/
theorem c9_amended_witness :
    ((∀ r ∈ c9wrows, rowOk schemaIdU32 r) ∧ (c9wrows.map rowKey).Nodup ∧
      Page.new c9wrows schemaIdU32 = some c9wP ∧
      c9wP.toBytes.length ≤ PAGE_SIZE) ∧
    pageRoundTrip c9wP schemaIdU32 = some c9wP :=
  ⟨⟨by decide, by decide, by decide, by decide⟩,
   c9_amended_roundtrip_distinct_ids [RowType.u32] c9wrows c9wP (by decide)
     (by decide) (by decide) (by decide)⟩
